import Mathlib

/-!
# Verification of the orange-db storage core

A shallow embedding, in Lean 4, of the storage core of the orange-db
repository (`src/db/src`): the sorted-page codec (`page/sort.rs`), the page
header (`page/base.rs`), the merging iterator (`page/iter.rs`), the manifest
log (`store/manifest.rs`) and the file reader (`file/file_reader.rs`), with
theorems checking the natural-language specification against the code.

Machine integers are modelled as `Nat` with explicit `% 2^w` where the code
truncates; bytes are `Nat`s that are `< 256` where it matters; fallible
operations return `Option` or `Except`.  The byte-cursor primitives
(`Encoder`/`Decoder` of the missing `page/codec.rs`) and the `Key`/`Value`
data types (missing `page/data.rs`) are modelled from the spec's wire
formats; everything else is translated directly from the Rust source.
-/

namespace OrangeDb

/-! ## Little-endian byte primitives

Modelled from the spec: the `Encoder`/`Decoder` byte cursor of the missing
`page/codec.rs` (`put_u32`/`put_u64`/`put_slice`, `get_u32`/`get_u64`/
`get_slice`/`remaining`), with the spec's little-endian wire formats.
A byte is a `Nat`; writers emit values reduced `% 256`.
-/

/-- Little-endian value of a byte list: `leVal [b0, b1, ...] = b0 + 256*b1 + ...`. -/
def leVal : List Nat → Nat
  | [] => 0
  | b :: bs => b % 256 + 256 * leVal bs

/-- The four little-endian bytes of a `u32` (as written by `put_u32`;
the Rust `as u32` cast truncates, hence the `% 2^32` behaviour). -/
def u32le (n : Nat) : List Nat :=
  [n % 256, n / 2^8 % 256, n / 2^16 % 256, n / 2^24 % 256]

/-- The eight little-endian bytes of a `u64` (as written by `put_u64`). -/
def u64le (n : Nat) : List Nat :=
  [n % 256, n / 2^8 % 256, n / 2^16 % 256, n / 2^24 % 256,
   n / 2^32 % 256, n / 2^40 % 256, n / 2^48 % 256, n / 2^56 % 256]

/-- `Decoder::get_slice(n)`: take `n` bytes off the cursor, failing when
fewer remain. -/
def readBytes (n : Nat) (bs : List Nat) : Option (List Nat × List Nat) :=
  if n ≤ bs.length then some (bs.take n, bs.drop n) else none

@[simp] theorem leVal_nil : leVal [] = 0 := rfl

@[simp] theorem leVal_cons (b : Nat) (bs : List Nat) :
    leVal (b :: bs) = b % 256 + 256 * leVal bs := rfl

@[simp] theorem u32le_length (n : Nat) : (u32le n).length = 4 := rfl

@[simp] theorem u64le_length (n : Nat) : (u64le n).length = 8 := rfl

theorem leVal_u32le (n : Nat) : leVal (u32le n) = n % 2^32 := by
  simp only [u32le, leVal]
  omega

theorem leVal_u64le (n : Nat) : leVal (u64le n) = n % 2^64 := by
  simp only [u64le, leVal]
  omega

theorem leVal_u32le_of_lt {n : Nat} (h : n < 2^32) : leVal (u32le n) = n := by
  rw [leVal_u32le, Nat.mod_eq_of_lt h]

theorem leVal_u64le_of_lt {n : Nat} (h : n < 2^64) : leVal (u64le n) = n := by
  rw [leVal_u64le, Nat.mod_eq_of_lt h]

theorem readBytes_append (pre rest : List Nat) :
    readBytes pre.length (pre ++ rest) = some (pre, rest) := by
  simp [readBytes]

theorem readBytes_eq_some {n : Nat} {bs pre rest : List Nat}
    (h : readBytes n bs = some (pre, rest)) :
    pre = bs.take n ∧ rest = bs.drop n ∧ n ≤ bs.length := by
  unfold readBytes at h
  split at h
  · next hle => cases h; exact ⟨rfl, rfl, hle⟩
  · exact absurd h (by simp)

/-! ## Keys and values

Modelled from the spec: the `Key`/`Value` data types of the missing
`page/data.rs`.  "Key: raw byte string + a monotonically meaningful sequence
number (`lsn`); ordering is lexicographic on raw bytes, then by sequence
number.  Value: `Put(bytes)` or `Delete` (tagged, 1-byte discriminant)."
The `Codec` impls for them live in `page/sort.rs` and are translated from
there.
-/

/-- A versioned key: raw bytes plus a sequence number. -/
structure Key where
  raw : List Nat
  lsn : Nat
deriving DecidableEq, Repr

/-- A value: `Put(bytes)` or `Delete`. -/
inductive Value where
  | put (bytes : List Nat)
  | delete
deriving DecidableEq, Repr

/-- Lexicographic comparison of raw byte strings (Rust `<[u8] as Ord>::cmp`). -/
def rawCmp : List Nat → List Nat → Ordering
  | [], [] => .eq
  | [], _ :: _ => .lt
  | _ :: _, [] => .gt
  | a :: as_, b :: bs =>
    match compare a b with
    | .eq => rawCmp as_ bs
    | o => o

/-- Key comparison: lexicographic on raw bytes, then by sequence number. -/
def keyCmp (a b : Key) : Ordering :=
  (rawCmp a.raw b.raw).then (compare a.lsn b.lsn)

/-- `a < b` in the key order. -/
def keyLt (a b : Key) : Prop := keyCmp a b = .lt

/-- `a ≤ b` in the key order. -/
def keyLe (a b : Key) : Prop := keyCmp a b ≠ .gt

instance : DecidableEq Ordering := fun a b => by
  cases a <;> cases b <;> first | exact isTrue rfl | exact isFalse (by simp)

instance (a b : Key) : Decidable (keyLt a b) := by unfold keyLt; infer_instance

instance (a b : Key) : Decidable (keyLe a b) := by unfold keyLe; infer_instance

theorem rawCmp_eq_iff : ∀ {a b : List Nat}, rawCmp a b = .eq ↔ a = b := by
  intro a
  induction a with
  | nil => intro b; cases b <;> simp [rawCmp]
  | cons x xs ih =>
    intro b
    cases b with
    | nil => simp [rawCmp]
    | cons y ys =>
      simp only [rawCmp]
      rcases Nat.lt_trichotomy x y with h | h | h
      · rw [Nat.compare_eq_lt.mpr h]; simp; omega
      · subst h; rw [Nat.compare_eq_eq.mpr rfl]; simp [ih]
      · rw [Nat.compare_eq_gt.mpr h]; simp; omega

theorem rawCmp_swap : ∀ (a b : List Nat), (rawCmp a b).swap = rawCmp b a := by
  intro a
  induction a with
  | nil => intro b; cases b <;> rfl
  | cons x xs ih =>
    intro b
    cases b with
    | nil => rfl
    | cons y ys =>
      simp only [rawCmp]
      rcases Nat.lt_trichotomy x y with h | h | h
      · rw [Nat.compare_eq_lt.mpr h, Nat.compare_eq_gt.mpr h]; rfl
      · subst h; rw [Nat.compare_eq_eq.mpr rfl]; exact ih ys
      · rw [Nat.compare_eq_gt.mpr h, Nat.compare_eq_lt.mpr h]; rfl

theorem rawCmp_lt_trans :
    ∀ {a b c : List Nat}, rawCmp a b = .lt → rawCmp b c = .lt → rawCmp a c = .lt := by
  intro a
  induction a with
  | nil =>
    intro b c hab hbc
    cases b with
    | nil => exact hbc
    | cons y ys => cases c with
      | nil => simp [rawCmp] at hbc
      | cons z zs => rfl
  | cons x xs ih =>
    intro b c hab hbc
    cases b with
    | nil => simp [rawCmp] at hab
    | cons y ys =>
      cases c with
      | nil => simp [rawCmp] at hbc
      | cons z zs =>
        simp only [rawCmp] at hab hbc ⊢
        rcases Nat.lt_trichotomy x y with h | h | h
        · rcases Nat.lt_trichotomy y z with h' | h' | h'
          · rw [Nat.compare_eq_lt.mpr (Nat.lt_trans h h')]
          · subst h'; rw [Nat.compare_eq_lt.mpr h]
          · rw [Nat.compare_eq_gt.mpr h'] at hbc; exact absurd hbc (by simp)
        · subst h
          rcases Nat.lt_trichotomy x z with h' | h' | h'
          · rw [Nat.compare_eq_lt.mpr h']
          · subst h'
            rw [Nat.compare_eq_eq.mpr rfl] at hab hbc ⊢
            exact ih hab hbc
          · rw [Nat.compare_eq_gt.mpr h'] at hbc; exact absurd hbc (by simp)
        · rw [Nat.compare_eq_gt.mpr h] at hab; exact absurd hab (by simp)

theorem ordering_then_lt {o p : Ordering} :
    o.then p = .lt ↔ o = .lt ∨ (o = .eq ∧ p = .lt) := by
  cases o <;> simp [Ordering.then]

theorem ordering_then_eq {o p : Ordering} :
    o.then p = .eq ↔ o = .eq ∧ p = .eq := by
  cases o <;> simp [Ordering.then]

theorem ordering_then_gt {o p : Ordering} :
    o.then p = .gt ↔ o = .gt ∨ (o = .eq ∧ p = .gt) := by
  cases o <;> simp [Ordering.then]

theorem keyCmp_eq_iff {a b : Key} : keyCmp a b = .eq ↔ a = b := by
  unfold keyCmp
  rw [ordering_then_eq]
  constructor
  · rintro ⟨hr, hl⟩
    have h1 := rawCmp_eq_iff.mp hr
    have h2 : a.lsn = b.lsn := Nat.compare_eq_eq.mp hl
    cases a; cases b; simp_all
  · rintro rfl
    exact ⟨rawCmp_eq_iff.mpr rfl, Nat.compare_eq_eq.mpr rfl⟩

theorem keyCmp_swap (a b : Key) : (keyCmp a b).swap = keyCmp b a := by
  unfold keyCmp
  rw [← rawCmp_swap a.raw b.raw]
  have hn : (compare a.lsn b.lsn).swap = compare b.lsn a.lsn := by
    rcases Nat.lt_trichotomy a.lsn b.lsn with h | h | h
    · rw [Nat.compare_eq_lt.mpr h, Nat.compare_eq_gt.mpr h]; rfl
    · rw [h, Nat.compare_eq_eq.mpr rfl]; rfl
    · rw [Nat.compare_eq_gt.mpr h, Nat.compare_eq_lt.mpr h]; rfl
  rw [← hn]
  cases rawCmp a.raw b.raw <;> cases compare a.lsn b.lsn <;> rfl

theorem keyCmp_lt_trans {a b c : Key}
    (hab : keyCmp a b = .lt) (hbc : keyCmp b c = .lt) : keyCmp a c = .lt := by
  unfold keyCmp at hab hbc ⊢
  rw [ordering_then_lt] at hab hbc ⊢
  rcases hab with h1 | ⟨h1, h1'⟩ <;> rcases hbc with h2 | ⟨h2, h2'⟩
  · exact Or.inl (rawCmp_lt_trans h1 h2)
  · exact Or.inl (rawCmp_eq_iff.mp h2 ▸ h1)
  · exact Or.inl (by rw [rawCmp_eq_iff.mp h1]; exact h2)
  · refine Or.inr ⟨by rw [rawCmp_eq_iff.mp h1]; exact h2, ?_⟩
    exact Nat.compare_eq_lt.mpr
      (Nat.lt_trans (Nat.compare_eq_lt.mp h1') (Nat.compare_eq_lt.mp h2'))

theorem keyLt_trans {a b c : Key} (hab : keyLt a b) (hbc : keyLt b c) : keyLt a c :=
  keyCmp_lt_trans hab hbc

theorem keyLt_of_keyLe_of_keyLt {a b c : Key} (hab : keyLe a b) (hbc : keyLt b c) :
    keyLt a c := by
  unfold keyLe at hab
  rcases h : keyCmp a b with _ | _ | _
  · exact keyCmp_lt_trans h hbc
  · exact keyCmp_eq_iff.mp h ▸ hbc
  · exact absurd h hab

theorem keyLe_of_keyLt {a b : Key} (h : keyLt a b) : keyLe a b := by
  unfold keyLe; unfold keyLt at h; rw [h]; simp

theorem keyLt_or_keyLe (a b : Key) : keyLt a b ∨ keyLe b a := by
  unfold keyLt keyLe
  rcases h : keyCmp a b with _ | _ | _
  · exact Or.inl rfl
  · refine Or.inr ?_
    have hab := keyCmp_eq_iff.mp h
    subst hab
    rw [keyCmp_eq_iff.mpr rfl]
    simp
  · refine Or.inr ?_
    rw [← keyCmp_swap a b, h]; simp [Ordering.swap]

theorem keyLe_refl (a : Key) : keyLe a a := by
  unfold keyLe; rw [keyCmp_eq_iff.mpr rfl]; simp

theorem keyLt_irrefl (a : Key) : ¬ keyLt a a := by
  unfold keyLt; rw [keyCmp_eq_iff.mpr rfl]; simp

theorem not_keyLt_of_keyLe {a b : Key} (h : keyLe a b) : ¬ keyLt b a := by
  unfold keyLe at h; unfold keyLt
  intro hlt
  rw [← keyCmp_swap b a, hlt] at h
  exact h rfl

theorem keyLe_of_not_keyLt {a b : Key} (h : ¬ keyLt b a) : keyLe a b := by
  unfold keyLt at h; unfold keyLe
  intro hgt
  rw [← keyCmp_swap a b] at h
  rcases hc : keyCmp a b with _ | _ | _ <;> rw [hc] at h hgt
  · exact absurd hgt (by simp)
  · exact absurd hgt (by simp)
  · exact h rfl

/-! ## Wire codecs (`impl Codec for Key/Value` in `page/sort.rs`)

Key = raw bytes (u32 length prefix + bytes) followed by u64 LE sequence
number; Value = 1-byte tag (0 = Put, 1 = Delete) followed by the raw bytes
for Put.
-/

/-- `<Key as Codec>::encode_to`: u32 LE length prefix, raw bytes, u64 LE lsn. -/
def encKey (k : Key) : List Nat :=
  u32le k.raw.length ++ k.raw ++ u64le k.lsn

/-- `<Key as Codec>::decode_from` over a byte cursor; returns the key and the
remaining bytes. -/
def decKey (bs : List Nat) : Option (Key × List Nat) := do
  let (lenB, r1) ← readBytes 4 bs
  let (raw, r2) ← readBytes (leVal lenB) r1
  let (lsnB, r3) ← readBytes 8 r2
  some (⟨raw, leVal lsnB⟩, r3)

/-- `<Value as Codec>::encode_to`: tag byte then the Put payload. -/
def encValue : Value → List Nat
  | .put v => 0 :: v
  | .delete => [1]

/-- `<Value as Codec>::decode_from`: reads the tag; Put takes all remaining
bytes of the cursor, Delete takes none.  The `unreachable!()` arm for other
tags is modelled as `none`. -/
def decValue (bs : List Nat) : Option Value :=
  match bs with
  | [] => none
  | t :: rest => if t = 0 then some (.put rest) else if t = 1 then some .delete else none

/-- One sorted-page item as encoded by `SortedPageBuf::add`: key then value. -/
def encItem (it : Key × Value) : List Nat :=
  encKey it.1 ++ encValue it.2

/-- `SortedPageRef::get`'s decoding of one item slice: key then value. -/
def decItem (bs : List Nat) : Option (Key × Value) := do
  let (k, rest) ← decKey bs
  let v ← decValue rest
  some (k, v)

/-- Well-formed key: its raw length fits the u32 length prefix and its lsn the
u64 field (guaranteed in Rust by the `usize`-to-`u32` range assert and the
`u64` type). -/
def keyWf (k : Key) : Prop := k.raw.length < 2^32 ∧ k.lsn < 2^64

instance (k : Key) : Decidable (keyWf k) := by unfold keyWf; infer_instance

theorem decKey_encKey (k : Key) (rest : List Nat) (hk : keyWf k) :
    decKey (encKey k ++ rest) = some (k, rest) := by
  unfold decKey encKey
  rw [List.append_assoc, List.append_assoc]
  rw [show (4 : Nat) = (u32le k.raw.length).length from rfl, readBytes_append]
  simp only [Option.bind_eq_bind, Option.some_bind]
  rw [leVal_u32le_of_lt hk.1]
  rw [show k.raw.length = k.raw.length from rfl, readBytes_append]
  simp only [Option.some_bind]
  rw [show (8 : Nat) = (u64le k.lsn).length from rfl, readBytes_append]
  simp only [Option.some_bind]
  rw [leVal_u64le_of_lt hk.2]

theorem decValue_encValue (v : Value) : decValue (encValue v) = some v := by
  cases v <;> rfl

theorem decItem_encItem (it : Key × Value) (hk : keyWf it.1) :
    decItem (encItem it) = some it := by
  unfold decItem encItem
  rw [decKey_encKey it.1 (encValue it.2) hk]
  simp [decValue_encValue]

@[simp] theorem encKey_length (k : Key) : (encKey k).length = 12 + k.raw.length := by
  simp [encKey]; omega

theorem encItem_length_pos (it : Key × Value) : 0 < (encItem it).length := by
  simp [encItem]

/-! ## Sorted page builder (`SortedPageBuilder` / `SortedPageBuf`, `page/sort.rs`)

`SortedPageBuf::new` splits the content buffer into an offsets region of
`4 * num_items` bytes and a payload region.  Each `add(key, value)` writes
`u32(offsets.len() + payload.offset())` — the offsets-region byte length
(`4 * num_items`, modelled from the spec: `Encoder::len` of the missing
`page/codec.rs` is the length of the split-off region) plus the payload
bytes written so far, i.e. the item's offset relative to the content start —
into the offsets region and the encoded key and value into the payload.
-/

/-- The builder loop: given the items still to add and the content-relative
offset of the next payload byte, returns the remaining offsets-region bytes
and payload-region bytes. -/
def buildAux : List (Key × Value) → Nat → List Nat × List Nat
  | [], _ => ([], [])
  | it :: rest, off =>
    let (obs, pay) := buildAux rest (off + (encItem it).length)
    (u32le off ++ obs, encItem it ++ pay)

/-- `SortedPageBuilder::build` for a page with the given items: the offsets
region (starting at content offset `4 * N`) followed by the payload region. -/
def buildContent (items : List (Key × Value)) : List Nat :=
  let (obs, pay) := buildAux items (4 * items.length)
  obs ++ pay

/-- Byte length of the payloads of the first `i` items. -/
def prefixLen (items : List (Key × Value)) (i : Nat) : Nat :=
  ((items.take i).map (fun it => (encItem it).length)).sum

/-- `SortedPageBuilder::with_iter`'s `content_size`: encoded item sizes plus
4 bytes per item for the offset table. -/
def contentSize (items : List (Key × Value)) : Nat :=
  4 * items.length + prefixLen items items.length

/-- The builder's precondition (its `assert!`): the content size must fit
`u32`, and every key is well formed (in Rust, by the `u64` type of `lsn`). -/
def pageWf (items : List (Key × Value)) : Prop :=
  contentSize items ≤ 2^32 - 1 ∧ ∀ it ∈ items, keyWf it.1

instance (items : List (Key × Value)) : Decidable (pageWf items) := by
  unfold pageWf; infer_instance

@[simp] theorem buildAux_nil (off : Nat) : buildAux [] off = ([], []) := rfl

theorem buildAux_cons (it : Key × Value) (rest : List (Key × Value)) (off : Nat) :
    buildAux (it :: rest) off =
      ((u32le off ++ (buildAux rest (off + (encItem it).length)).1),
       (encItem it ++ (buildAux rest (off + (encItem it).length)).2)) := rfl

theorem buildAux_fst_length (items : List (Key × Value)) (off : Nat) :
    (buildAux items off).1.length = 4 * items.length := by
  induction items generalizing off with
  | nil => simp
  | cons it rest ih =>
    rw [buildAux_cons]
    simp [ih]
    omega

theorem buildAux_snd (items : List (Key × Value)) (off : Nat) :
    (buildAux items off).2 = (items.map encItem).flatten := by
  induction items generalizing off with
  | nil => simp
  | cons it rest ih => rw [buildAux_cons]; simp [ih]

theorem prefixLen_zero (items : List (Key × Value)) : prefixLen items 0 = 0 := by
  simp [prefixLen]

theorem prefixLen_succ (items : List (Key × Value)) (i : Nat) (hi : i < items.length) :
    prefixLen items (i + 1) = prefixLen items i + (encItem (items.get ⟨i, hi⟩)).length := by
  unfold prefixLen
  simp only [List.map_take]
  rw [List.sum_take_succ _ i (by simpa using hi)]
  simp

theorem prefixLen_mono (items : List (Key × Value)) {i j : Nat} (h : i ≤ j) :
    prefixLen items i ≤ prefixLen items j := by
  induction j with
  | zero => simp_all
  | succ j ih =>
    rcases Nat.lt_or_ge j items.length with hj | hj
    · rcases Nat.eq_or_lt_of_le h with rfl | h'
      · exact Nat.le_refl _
      · exact Nat.le_trans (ih (Nat.lt_succ_iff.mp h'))
          (by rw [prefixLen_succ items j hj]; omega)
    · have : items.take (j + 1) = items.take j := by
        rw [List.take_of_length_le hj, List.take_of_length_le (Nat.le_succ_of_le hj)]
      rcases Nat.eq_or_lt_of_le h with rfl | h'
      · exact Nat.le_refl _
      · unfold prefixLen
        rw [this]
        exact ih (Nat.lt_succ_iff.mp h')

theorem payload_length (items : List (Key × Value)) :
    ((items.map encItem).flatten).length = prefixLen items items.length := by
  unfold prefixLen
  rw [List.take_length, List.length_flatten, List.map_map]
  rfl

theorem buildContent_length (items : List (Key × Value)) :
    (buildContent items).length = contentSize items := by
  unfold buildContent contentSize
  rw [List.length_append, buildAux_fst_length, buildAux_snd, payload_length]

/-! ## Sorted page reader (`SortedPageRef`, `page/sort.rs`)

`SortedPageRef::new` reads the first u32 of the content (when non-empty) as
the offsets-table byte length and takes `size / 4` as the item count; the
offsets slice is the first `size / 4` u32 words of the content (the first of
which is the size word itself).  `item(i)` is the byte slice
`[offsets[i], offsets[i+1] or content.len())`, `get(i)` decodes key then
value from it.
-/

/-- The unaligned little-endian u32 read at byte position `pos` (raw pointer
read in `SortedPageRef::new` / `item_offset`). -/
def readU32At (content : List Nat) (pos : Nat) : Nat :=
  leVal ((content.drop pos).take 4)

/-- `SortedPageRef::len`: the number of items, `first-u32 / 4` (0 for empty
content). -/
def pageNumItems (content : List Nat) : Nat :=
  if content.length = 0 then 0 else readU32At content 0 / 4

/-- `SortedPageRef::item_offset`: `offsets.get(i)`, the i-th u32 word of the
offsets slice. -/
def pageItemOffset (content : List Nat) (i : Nat) : Option Nat :=
  if i < pageNumItems content then some (readU32At content (4 * i)) else none

/-- `SortedPageRef::item`: the byte slice `[offsets[i], offsets[i+1] or
content.len())`. -/
def pageItem (content : List Nat) (i : Nat) : Option (List Nat) :=
  match pageItemOffset content i with
  | none => none
  | some off =>
    let nextOff := (pageItemOffset content (i + 1)).getD content.length
    some ((content.drop off).take (nextOff - off))

/-- `SortedPageRef::get`: decode key then value from the item slice. -/
def pageGet (content : List Nat) (i : Nat) : Option (Key × Value) :=
  (pageItem content i).bind decItem

theorem prefixLen_cons_succ (it : Key × Value) (rest : List (Key × Value)) (i : Nat) :
    prefixLen (it :: rest) (i + 1) = (encItem it).length + prefixLen rest i := by
  simp [prefixLen]

theorem readU32_buildAux :
    ∀ (items : List (Key × Value)) (base : Nat) (tail : List Nat) (i : Nat),
      i < items.length →
      leVal ((((buildAux items base).1 ++ tail).drop (4 * i)).take 4) =
        (base + prefixLen items i) % 2^32 := by
  intro items
  induction items with
  | nil => intro base tail i hi; simp at hi
  | cons it rest ih =>
    intro base tail i hi
    rw [buildAux_cons]
    cases i with
    | zero =>
      simp only [Nat.mul_zero, List.drop_zero, prefixLen_zero, Nat.add_zero]
      rw [List.append_assoc, List.take_left' (by simp), leVal_u32le]
    | succ i =>
      rw [List.append_assoc, List.drop_append_eq_append_drop]
      have h4 : (4 : Nat) * (i + 1) - (u32le base).length = 4 * i := by
        simp only [u32le_length]; omega
      have h4' : (u32le base).drop (4 * (i + 1)) = [] := by
        apply List.drop_eq_nil_of_le; simp only [u32le_length]; omega
      rw [h4, h4', List.nil_append, prefixLen_cons_succ]
      have hih := ih (base + (encItem it).length) tail i (by simpa using hi)
      rw [hih]
      congr 1
      omega

theorem readU32At_buildContent (items : List (Key × Value)) (i : Nat)
    (hi : i < items.length) :
    readU32At (buildContent items) (4 * i) =
      (4 * items.length + prefixLen items i) % 2^32 := by
  unfold readU32At buildContent
  exact readU32_buildAux items (4 * items.length) _ i hi

theorem offset_le_contentSize (items : List (Key × Value)) {i : Nat}
    (hi : i ≤ items.length) :
    4 * items.length + prefixLen items i ≤ contentSize items := by
  unfold contentSize
  have := prefixLen_mono items hi
  omega

theorem readU32At_buildContent_of_wf (items : List (Key × Value))
    (hwf : pageWf items) (i : Nat) (hi : i < items.length) :
    readU32At (buildContent items) (4 * i) = 4 * items.length + prefixLen items i := by
  rw [readU32At_buildContent items i hi]
  have h1 := offset_le_contentSize items (Nat.le_of_lt hi)
  have h2 := hwf.1
  exact Nat.mod_eq_of_lt (by omega)

theorem pageNumItems_buildContent (items : List (Key × Value)) (hwf : pageWf items) :
    pageNumItems (buildContent items) = items.length := by
  unfold pageNumItems
  rcases items with _ | ⟨it, rest⟩
  · simp [buildContent]
  · have hlen : (buildContent (it :: rest)).length ≠ 0 := by
      rw [buildContent_length]
      unfold contentSize
      simp
    rw [if_neg hlen]
    have := readU32At_buildContent_of_wf (it :: rest) hwf 0 (by simp)
    simp only [Nat.mul_zero] at this
    rw [this, prefixLen_zero, Nat.add_zero]
    omega

theorem pageItemOffset_buildContent (items : List (Key × Value)) (hwf : pageWf items)
    (i : Nat) (hi : i < items.length) :
    pageItemOffset (buildContent items) i = some (4 * items.length + prefixLen items i) := by
  unfold pageItemOffset
  rw [pageNumItems_buildContent items hwf, if_pos hi,
    readU32At_buildContent_of_wf items hwf i hi]

theorem pageItemOffset_buildContent_none (items : List (Key × Value)) (hwf : pageWf items)
    (i : Nat) (hi : items.length ≤ i) :
    pageItemOffset (buildContent items) i = none := by
  unfold pageItemOffset
  rw [pageNumItems_buildContent items hwf, if_neg (by omega)]

theorem flatten_slice (items : List (Key × Value)) :
    ∀ (i : Nat) (hi : i < items.length),
      (((items.map encItem).flatten.drop (prefixLen items i)).take
        (encItem (items.get ⟨i, hi⟩)).length) = encItem (items.get ⟨i, hi⟩) := by
  induction items with
  | nil => intro i hi; simp at hi
  | cons it rest ih =>
    intro i hi
    cases i with
    | zero =>
      simp only [prefixLen_zero, List.drop_zero, List.map_cons, List.flatten_cons,
        List.get]
      exact List.take_left' rfl
    | succ i =>
      simp only [List.map_cons, List.flatten_cons, prefixLen_cons_succ, List.get]
      rw [List.drop_append_eq_append_drop]
      have h1 : (encItem it).drop ((encItem it).length + prefixLen rest i) = [] :=
        List.drop_eq_nil_of_le (by omega)
      have h2 : (encItem it).length + prefixLen rest i - (encItem it).length
          = prefixLen rest i := by omega
      rw [h1, h2, List.nil_append]
      exact ih i (by simpa using hi)

theorem buildContent_drop (items : List (Key × Value)) (k : Nat) :
    (buildContent items).drop (4 * items.length + k) =
      ((items.map encItem).flatten).drop k := by
  unfold buildContent
  rw [List.drop_append_eq_append_drop, buildAux_snd,
    List.drop_eq_nil_of_le (by rw [buildAux_fst_length]; omega),
    List.nil_append, buildAux_fst_length,
    show 4 * items.length + k - 4 * items.length = k by omega]

theorem pageItem_buildContent (items : List (Key × Value)) (hwf : pageWf items)
    (i : Nat) (hi : i < items.length) :
    pageItem (buildContent items) i = some (encItem (items.get ⟨i, hi⟩)) := by
  unfold pageItem
  rw [pageItemOffset_buildContent items hwf i hi]
  have hnext : (pageItemOffset (buildContent items) (i + 1)).getD
      (buildContent items).length = 4 * items.length + prefixLen items (i + 1) := by
    rcases Nat.lt_or_ge (i + 1) items.length with h | h
    · rw [pageItemOffset_buildContent items hwf (i + 1) h]; rfl
    · have : i + 1 = items.length := by omega
      rw [pageItemOffset_buildContent_none items hwf (i + 1) h, Option.getD_none,
        buildContent_length, this]
      rfl
  simp only [hnext]
  rw [show 4 * items.length + prefixLen items (i + 1)
        - (4 * items.length + prefixLen items i)
      = prefixLen items (i + 1) - prefixLen items i by omega,
    prefixLen_succ items i hi,
    show prefixLen items i + (encItem (items.get ⟨i, hi⟩)).length - prefixLen items i
      = (encItem (items.get ⟨i, hi⟩)).length by omega,
    buildContent_drop items (prefixLen items i),
    flatten_slice items i hi]

theorem pageGet_buildContent (items : List (Key × Value)) (hwf : pageWf items)
    (i : Nat) (hi : i < items.length) :
    pageGet (buildContent items) i = some (items.get ⟨i, hi⟩) := by
  unfold pageGet
  rw [pageItem_buildContent items hwf i hi]
  simp only [Option.bind_eq_bind, Option.some_bind]
  exact decItem_encItem _ (hwf.2 _ (items.get_mem i hi))

theorem pageGet_buildContent_none (items : List (Key × Value)) (hwf : pageWf items)
    (i : Nat) (hi : items.length ≤ i) :
    pageGet (buildContent items) i = none := by
  unfold pageGet pageItem
  rw [pageItemOffset_buildContent_none items hwf i hi]
  rfl

/-! ## Sorted page iteration (`SortedPageIter`, `page/sort.rs`) -/

/-- `SortedPageIter` starting at index `i`: `next` yields `get(i)` and
advances until `get` returns `None`.  `fuel` bounds the number of `next`
calls; any `fuel ≥` the item count reaches exhaustion. -/
def pageIterFrom (content : List Nat) : Nat → Nat → List (Key × Value)
  | _, 0 => []
  | i, fuel + 1 =>
    match pageGet content i with
    | some item => item :: pageIterFrom content (i + 1) fuel
    | none => []

theorem pageIterFrom_buildContent (items : List (Key × Value)) (hwf : pageWf items) :
    ∀ (fuel i : Nat), items.length - i ≤ fuel →
      pageIterFrom (buildContent items) i fuel = items.drop i := by
  intro fuel
  induction fuel with
  | zero =>
    intro i hi
    have : items.length ≤ i := by omega
    rw [List.drop_eq_nil_of_le this]
    rfl
  | succ fuel ih =>
    intro i hi
    rcases Nat.lt_or_ge i items.length with h | h
    · unfold pageIterFrom
      rw [pageGet_buildContent items hwf i h]
      rw [ih (i + 1) (by omega)]
      rw [List.drop_eq_getElem_cons h]
      rfl
    · unfold pageIterFrom
      rw [pageGet_buildContent_none items hwf i h, List.drop_eq_nil_of_le h]

/-! ## C4 -/

/-- C4: for every ascending, unique-key, well-formed sequence of (key, value)
items, building a sorted page with `SortedPageBuilder` and then iterating it
with `SortedPageIter` (given enough `next` calls to exhaust it) yields
exactly the original sequence, item for item, in the same order. -/
theorem spec_C4_roundtrip (items : List (Key × Value))
    (_hasc : items.Pairwise (fun a b => keyLt a.1 b.1))
    (hwf : pageWf items) (fuel : Nat) (hfuel : items.length ≤ fuel) :
    pageIterFrom (buildContent items) 0 fuel = items := by
  rw [pageIterFrom_buildContent items hwf fuel 0 (by omega)]
  rfl

/-- Witness for C4 at a concrete two-item sequence. -/
theorem spec_C4_roundtrip_witness :
    ([((⟨[1], 1⟩ : Key), Value.put [5]), (⟨[2], 2⟩, Value.delete)].Pairwise
      (fun a b => keyLt a.1 b.1)) ∧
    pageWf [((⟨[1], 1⟩ : Key), Value.put [5]), (⟨[2], 2⟩, Value.delete)] ∧
    pageIterFrom
      (buildContent [((⟨[1], 1⟩ : Key), Value.put [5]), (⟨[2], 2⟩, Value.delete)]) 0 2
      = [((⟨[1], 1⟩ : Key), Value.put [5]), (⟨[2], 2⟩, Value.delete)] :=
  ⟨by decide, by decide,
    spec_C4_roundtrip _ (by decide) (by decide) 2 (by decide)⟩

/-! ## C8: the encoded content layout -/

/-- Closed form of the offsets region: the `N` content-relative u32 offset
words, one per item. -/
theorem buildAux_fst_closed (items : List (Key × Value)) :
    ∀ (base : Nat),
      (buildAux items base).1 =
        ((List.range items.length).map
          (fun i => u32le (base + prefixLen items i))).flatten := by
  induction items with
  | nil => intro base; simp
  | cons it rest ih =>
    intro base
    rw [buildAux_cons]
    simp only [List.length_cons, List.range_succ_eq_map, List.map_cons,
      List.flatten_cons, List.map_map]
    rw [prefixLen_zero, Nat.add_zero]
    congr 1
    rw [ih (base + (encItem it).length)]
    congr 1
    apply List.map_congr_left
    intro i _
    simp only [Function.comp_apply, prefixLen_cons_succ]
    congr 1
    omega

/-- The layout C8 literally describes: a leading u32 length field *plus* one
offset word per item, then the payload. -/
def claimedLayoutC8 (items : List (Key × Value)) : List Nat :=
  u32le (4 * items.length) ++
    ((List.range items.length).map
      (fun i => u32le (4 * items.length + prefixLen items i))).flatten ++
    (items.map encItem).flatten

/-- C8 counterexample: for a one-item page the claimed layout (separate
length field followed by one offset word) has four more bytes than the
content the builder actually produces — the length field is not a separate
word. -/
theorem spec_C8_layout_counterexample :
    buildContent [((⟨[], 0⟩ : Key), Value.delete)] ≠
      claimedLayoutC8 [((⟨[], 0⟩ : Key), Value.delete)] := by
  decide

/-- C8 amended: the content built from `N` items consists of exactly `N`
little-endian u32 offset words (item `i`'s offset is `4*N` plus the payload
bytes before it, i.e. content-relative) followed by the densely packed
payload; there is no separate count or length field — the first offset word
equals `4*N` and doubles as the offsets-table byte length, and the reader
derives the item count from it as `len = first-word / 4 = N` (with empty
content giving 0), so `len()` of the reader equals `N`. -/
theorem spec_C8_layout (items : List (Key × Value)) (hwf : pageWf items) :
    buildContent items =
      ((List.range items.length).map
        (fun i => u32le (4 * items.length + prefixLen items i))).flatten ++
      (items.map encItem).flatten ∧
    (0 < items.length → readU32At (buildContent items) 0 = 4 * items.length) ∧
    pageNumItems (buildContent items) = items.length := by
  refine ⟨?_, ?_, pageNumItems_buildContent items hwf⟩
  · show (buildAux items (4 * items.length)).1 ++ (buildAux items (4 * items.length)).2 = _
    rw [buildAux_fst_closed items (4 * items.length), buildAux_snd]
  · intro hpos
    have := readU32At_buildContent_of_wf items hwf 0 hpos
    simpa [prefixLen_zero] using this

/-- Witness for C8 at a concrete two-item page. -/
theorem spec_C8_layout_witness :
    pageWf [((⟨[1], 1⟩ : Key), Value.put [5]), (⟨[2], 2⟩, Value.delete)] ∧
    (buildContent [((⟨[1], 1⟩ : Key), Value.put [5]), (⟨[2], 2⟩, Value.delete)] =
      ((List.range 2).map
        (fun i => u32le (4 * 2 + prefixLen
          [((⟨[1], 1⟩ : Key), Value.put [5]), (⟨[2], 2⟩, Value.delete)] i))).flatten ++
      ([((⟨[1], 1⟩ : Key), Value.put [5]), (⟨[2], 2⟩, Value.delete)].map encItem).flatten ∧
    (0 < 2 → readU32At
      (buildContent [((⟨[1], 1⟩ : Key), Value.put [5]), (⟨[2], 2⟩, Value.delete)]) 0
        = 4 * 2) ∧
    pageNumItems
      (buildContent [((⟨[1], 1⟩ : Key), Value.put [5]), (⟨[2], 2⟩, Value.delete)]) = 2) :=
  ⟨by decide, spec_C8_layout _ (by decide)⟩

/-! ## Binary-search rank (`SortedPageRef::rank`, `page/sort.rs`) -/

/-- The key decoded from item slice `mid` (`K::decode_from` on
`self.item(mid).unwrap()`); the `unwrap` is modelled by a default key that is
never reached on a well-formed page. -/
def pageKeyAt (content : List Nat) (i : Nat) : Key :=
  (((pageItem content i).bind decKey).map Prod.fst).getD ⟨[], 0⟩

/-- The binary-search loop of `rank`: `left`/`right` bracket the candidates;
compare the decoded key at `mid = (left + right) / 2` with the target.  The
loop halves `right - left` each round, so any `fuel ≥ right - left` runs it
to completion; the fuel-exhausted arm coincides with the loop exit. -/
def pageRankGo (content : List Nat) (target : Key) : Nat → Nat → Nat → Nat ⊕ Nat
  | 0, left, _ => .inr left
  | fuel + 1, left, right =>
    if left < right then
      match keyCmp (pageKeyAt content ((left + right) / 2)) target with
      | .lt => pageRankGo content target fuel ((left + right) / 2 + 1) right
      | .gt => pageRankGo content target fuel left ((left + right) / 2)
      | .eq => .inl ((left + right) / 2)
    else .inr left

/-- `SortedPageRef::rank`: binary search over the whole page; `.inl` is Rust's
`Ok` (exact match), `.inr` is `Err` (insertion index). -/
def pageRank (content : List Nat) (target : Key) : Nat ⊕ Nat :=
  pageRankGo content target (pageNumItems content) 0 (pageNumItems content)

theorem pageKeyAt_buildContent (items : List (Key × Value)) (hwf : pageWf items)
    (i : Nat) (hi : i < items.length) :
    pageKeyAt (buildContent items) i = (items.get ⟨i, hi⟩).1 := by
  unfold pageKeyAt
  rw [pageItem_buildContent items hwf i hi]
  have hk : keyWf (items.get ⟨i, hi⟩).1 := hwf.2 _ (items.get_mem i hi)
  simp only [Option.bind_eq_bind, Option.some_bind, encItem, decKey_encKey _ _ hk]
  rfl

/-- Correctness of the binary-search loop over any content whose decoded keys
agree with the (non-strictly) sorted list `keys`. -/
theorem pageRankGo_zero (content : List Nat) (target : Key) (left right : Nat) :
    pageRankGo content target 0 left right = .inr left := rfl

theorem pageRankGo_succ (content : List Nat) (target : Key)
    (fuel left right : Nat) :
    pageRankGo content target (fuel + 1) left right =
      if left < right then
        match keyCmp (pageKeyAt content ((left + right) / 2)) target with
        | .lt => pageRankGo content target fuel ((left + right) / 2 + 1) right
        | .gt => pageRankGo content target fuel left ((left + right) / 2)
        | .eq => .inl ((left + right) / 2)
      else .inr left := rfl

theorem pageRankGo_spec (content : List Nat) (target : Key) (keys : List Key)
    (hk : ∀ i (h : i < keys.length), pageKeyAt content i = keys.get ⟨i, h⟩) :
    ∀ (fuel left right : Nat), right - left ≤ fuel → left ≤ right →
      right ≤ keys.length →
      (left = 0 ∨ ∃ h : left - 1 < keys.length, keyLt (keys.get ⟨left - 1, h⟩) target) →
      (right = keys.length ∨ ∃ h : right < keys.length, keyLt target (keys.get ⟨right, h⟩)) →
      (∀ i, pageRankGo content target fuel left right = .inl i →
        ∃ h : i < keys.length, keys.get ⟨i, h⟩ = target) ∧
      (∀ j, pageRankGo content target fuel left right = .inr j →
        j ≤ keys.length ∧
        (j = 0 ∨ ∃ h : j - 1 < keys.length, keyLt (keys.get ⟨j - 1, h⟩) target) ∧
        (j = keys.length ∨ ∃ h : j < keys.length, keyLt target (keys.get ⟨j, h⟩))) := by
  intro fuel
  induction fuel with
  | zero =>
    intro left right hf hlr hrlen hl hr
    have heq : left = right := by omega
    subst heq
    rw [pageRankGo_zero]
    refine ⟨(fun i h => by cases h), fun j h => ?_⟩
    cases h
    exact ⟨by omega, hl, hr⟩
  | succ fuel ih =>
    intro left right hf hlr hrlen hl hr
    rw [pageRankGo_succ]
    by_cases hc : left < right
    · rw [if_pos hc]
      have hmid : (left + right) / 2 < keys.length := by omega
      have hkey := hk ((left + right) / 2) hmid
      rcases hcmp : keyCmp (pageKeyAt content ((left + right) / 2)) target
        with _ | _ | _
      · -- keys[mid] < target: search [mid+1, right)
        exact ih ((left + right) / 2 + 1) right (by omega) (by omega) hrlen
          (Or.inr ⟨by omega, by
            unfold keyLt
            rw [show keys.get ⟨(left + right) / 2 + 1 - 1, by omega⟩
                = keys.get ⟨(left + right) / 2, hmid⟩ by congr 1]
            rw [← hkey]
            exact hcmp⟩) hr
      · -- keys[mid] = target: found
        refine ⟨fun i h => ?_, (fun j h => by cases h)⟩
        cases h
        refine ⟨hmid, ?_⟩
        rw [← hkey]
        exact keyCmp_eq_iff.mp hcmp
      · -- keys[mid] > target: search [left, mid)
        exact ih left ((left + right) / 2) (by omega) (by omega) (by omega) hl
          (Or.inr ⟨hmid, by
            unfold keyLt
            rw [← hkey]
            have hsw := keyCmp_swap (pageKeyAt content ((left + right) / 2)) target
            rw [hcmp] at hsw
            exact hsw.symm⟩)
    · rw [if_neg hc]
      have hle : left = right := by omega
      subst hle
      refine ⟨(fun i h => by cases h), fun j h => ?_⟩
      cases h
      exact ⟨by omega, hl, hr⟩

/-! ## C6 -/

theorem pairwise_keyLe_get (keys : List Key) (hs : keys.Pairwise keyLe)
    {i j : Nat} (hij : i ≤ j) (hj : j < keys.length) :
    keyLe (keys.get ⟨i, Nat.lt_of_le_of_lt hij hj⟩) (keys.get ⟨j, hj⟩) := by
  rcases Nat.eq_or_lt_of_le hij with rfl | hlt
  · exact keyLe_refl _
  · exact List.pairwise_iff_get.mp hs ⟨i, Nat.lt_of_le_of_lt hij hj⟩ ⟨j, hj⟩ hlt

theorem keyLt_ne {a b : Key} (h : keyLt a b) : a ≠ b := by
  intro heq
  subst heq
  exact keyLt_irrefl a h

theorem keyLt_of_keyLt_of_keyLe {a b c : Key} (hab : keyLt a b) (hbc : keyLe b c) :
    keyLt a c := by
  rcases h : keyCmp b c with _ | _ | _
  · exact keyLt_trans hab h
  · rw [← keyCmp_eq_iff.mp h]
    exact hab
  · exact absurd h hbc

theorem keyLe_trans {a b c : Key} (hab : keyLe a b) (hbc : keyLe b c) : keyLe a c := by
  rcases hc : keyCmp b c with _ | _ | _
  · exact keyLe_of_keyLt (keyLt_of_keyLe_of_keyLt hab hc)
  · rw [← keyCmp_eq_iff.mp hc]
    exact hab
  · exact absurd hc hbc

/-- C6: on a page built from items ascending by key, `rank(t)` returns `Ok i`
only when item `i`'s key equals `t` (any one matching index when duplicates
exist); otherwise it returns `Err j` with `j ≤ N`, no item's key equal to
`t`, and inserting `t` at position `j` of the key sequence preserves the
ascending order. -/
theorem spec_C6_rank (items : List (Key × Value)) (hwf : pageWf items)
    (hs : items.Pairwise (fun a b => keyLe a.1 b.1)) (t : Key) :
    (∀ i, pageRank (buildContent items) t = .inl i →
      ∃ h : i < items.length, (items.get ⟨i, h⟩).1 = t) ∧
    (∀ j, pageRank (buildContent items) t = .inr j →
      j ≤ items.length ∧
      (∀ i (h : i < items.length), (items.get ⟨i, h⟩).1 ≠ t) ∧
      ((items.map Prod.fst).take j ++ t ::
        (items.map Prod.fst).drop j).Pairwise keyLe) := by
  set keys : List Key := items.map Prod.fst with hkeys
  have hklen : keys.length = items.length := by simp [hkeys]
  have hk : ∀ i (h : i < keys.length),
      pageKeyAt (buildContent items) i = keys.get ⟨i, h⟩ := by
    intro i h
    rw [pageKeyAt_buildContent items hwf i (by omega)]
    simp [hkeys]
  have hs' : keys.Pairwise keyLe := by
    rw [hkeys, List.pairwise_map]
    exact hs
  have hrank : pageRank (buildContent items) t
      = pageRankGo (buildContent items) t keys.length 0 keys.length := by
    unfold pageRank
    rw [pageNumItems_buildContent items hwf, hklen]
  have main := pageRankGo_spec (buildContent items) t keys hk keys.length 0 keys.length
    (by omega) (by omega) (by omega) (Or.inl rfl) (Or.inl rfl)
  have kget : ∀ (i : Nat) (h : i < keys.length),
      keys.get ⟨i, h⟩ = (items.get ⟨i, by omega⟩).1 := by
    intro i h
    simp [hkeys]
  constructor
  · intro i h
    rw [hrank] at h
    obtain ⟨hi, he⟩ := main.1 i h
    refine ⟨by omega, ?_⟩
    rw [← kget i hi, he]
  · intro j h
    rw [hrank] at h
    obtain ⟨hj, hbl, hbr⟩ := main.2 j h
    refine ⟨by omega, ?_, ?_⟩
    · -- no item key equals t
      intro i hi heq
      rcases Nat.lt_or_ge i j with hij | hij
      · rcases hbl with h0 | ⟨hb, hlt⟩
        · omega
        · have hle := pairwise_keyLe_get keys hs' (show i ≤ j - 1 by omega) hb
          have hfin : keyLt (keys.get ⟨i, by omega⟩) t :=
            keyLt_of_keyLe_of_keyLt hle hlt
          rw [kget i (by omega), heq] at hfin
          exact keyLt_irrefl t hfin
      · rcases hbr with h0 | ⟨hb, hlt⟩
        · omega
        · have hle := pairwise_keyLe_get keys hs' hij (show i < keys.length by omega)
          have hfin : keyLt t (keys.get ⟨i, by omega⟩) :=
            keyLt_of_keyLt_of_keyLe hlt hle
          rw [kget i (by omega), heq] at hfin
          exact keyLt_irrefl t hfin
    · -- inserting t at j preserves the ascending order
      rw [List.pairwise_append]
      refine ⟨hs'.sublist (List.take_sublist j keys), ?_, ?_⟩
      · rw [List.pairwise_cons]
        refine ⟨?_, hs'.sublist (List.drop_sublist j keys)⟩
        intro b hb
        obtain ⟨⟨m, hm⟩, rfl⟩ := List.mem_iff_get.mp hb
        have hjm : j + m < keys.length := by
          have := hm
          simp only [List.length_drop] at this
          omega
        have hget : (keys.drop j).get ⟨m, hm⟩ = keys.get ⟨j + m, hjm⟩ := by
          simp [List.getElem_drop]
        rw [hget]
        rcases hbr with h0 | ⟨hb', hlt⟩
        · omega
        · exact keyLe_of_keyLt
            (keyLt_of_keyLt_of_keyLe hlt
              (pairwise_keyLe_get keys hs' (Nat.le_add_right j m) hjm))
      · intro a ha b hb
        obtain ⟨⟨m, hm⟩, rfl⟩ := List.mem_iff_get.mp ha
        have hmj : m < j ∧ m < keys.length := by
          have := hm
          simp only [List.length_take] at this
          omega
        have hgeta : (keys.take j).get ⟨m, hm⟩ = keys.get ⟨m, hmj.2⟩ := by
          simp [List.getElem_take]
        rw [hgeta]
        rcases List.mem_cons.mp hb with rfl | hbd
        · rcases hbl with h0 | ⟨hb', hlt⟩
          · omega
          · exact keyLe_of_keyLt
              (keyLt_of_keyLe_of_keyLt
                (pairwise_keyLe_get keys hs' (show m ≤ j - 1 by omega) hb') hlt)
        · obtain ⟨⟨m', hm'⟩, rfl⟩ := List.mem_iff_get.mp hbd
          have hjm' : j + m' < keys.length := by
            have := hm'
            simp only [List.length_drop] at this
            omega
          have hgetb : (keys.drop j).get ⟨m', hm'⟩ = keys.get ⟨j + m', hjm'⟩ := by
            simp [List.getElem_drop]
          rw [hgetb]
          exact pairwise_keyLe_get keys hs' (show m ≤ j + m' by omega) hjm'

/-- Witness for C6 at a concrete two-item page and an absent target key. -/
theorem spec_C6_rank_witness :
    pageWf [((⟨[1], 5⟩ : Key), Value.delete), (⟨[3], 5⟩, Value.delete)] ∧
    ([((⟨[1], 5⟩ : Key), Value.delete), (⟨[3], 5⟩, Value.delete)].Pairwise
      (fun a b => keyLe a.1 b.1)) ∧
    ((∀ i, pageRank
        (buildContent [((⟨[1], 5⟩ : Key), Value.delete), (⟨[3], 5⟩, Value.delete)])
        ⟨[2], 0⟩ = .inl i →
      ∃ h : i < 2,
        ([((⟨[1], 5⟩ : Key), Value.delete), (⟨[3], 5⟩, Value.delete)].get ⟨i, h⟩).1
          = ⟨[2], 0⟩) ∧
    (∀ j, pageRank
        (buildContent [((⟨[1], 5⟩ : Key), Value.delete), (⟨[3], 5⟩, Value.delete)])
        ⟨[2], 0⟩ = .inr j →
      j ≤ 2 ∧
      (∀ i (h : i < 2),
        ([((⟨[1], 5⟩ : Key), Value.delete), (⟨[3], 5⟩, Value.delete)].get ⟨i, h⟩).1
          ≠ ⟨[2], 0⟩) ∧
      (([((⟨[1], 5⟩ : Key), Value.delete), (⟨[3], 5⟩, Value.delete)].map
          Prod.fst).take j ++ (⟨[2], 0⟩ : Key) ::
        ([((⟨[1], 5⟩ : Key), Value.delete), (⟨[3], 5⟩, Value.delete)].map
          Prod.fst).drop j).Pairwise keyLe)) :=
  ⟨by decide, by decide, spec_C6_rank _ (by decide) (by decide) _⟩

/-! ## Split discovery (`SortedPageRef::into_split_iter`, `page/sort.rs`) -/

/-- `<Key as SortedPageKey>::as_split_separator`: same raw bytes, sequence
number forced to `u64::MAX` ("avoid splitting on the same raw key"). -/
def asSplitSeparator (k : Key) : Key := ⟨k.raw, 2^64 - 1⟩

/-- `SortedPageRangeIter` over `[i, e)`: `next` yields `get(index)` while
`index < range.end` and `get` succeeds.  `fuel` bounds the number of `next`
calls. -/
def pageRangeList (content : List Nat) : Nat → Nat → Nat → List (Key × Value)
  | _, _, 0 => []
  | i, e, fuel + 1 =>
    if i < e then
      match pageGet content i with
      | some item => item :: pageRangeList content (i + 1) e fuel
      | none => []
    else []

/-- The `match self.rank(&sep) { Ok(i) => i, Err(i) => i }` of
`into_split_iter`: either branch of the `Result` yields the index. -/
def rankIndex (content : List Nat) (sep : Key) : Nat :=
  match pageRank content sep with
  | .inl i => i
  | .inr i => i

/-- `SortedPageRef::into_split_iter`: takes the middle item's key, derives the
split separator, ranks it and, only when the index is non-zero, returns the
separator together with the two half-open ranges `[0, index)` and
`[index, len)` that the returned `SortedPageRangeIter`s cover. -/
def intoSplitIter (content : List Nat) :
    Option (Key × (Nat × Nat) × (Nat × Nat)) :=
  match pageGet content (pageNumItems content / 2) with
  | some itm =>
    if 0 < rankIndex content (asSplitSeparator itm.1) then
      some (asSplitSeparator itm.1,
        (0, rankIndex content (asSplitSeparator itm.1)),
        (rankIndex content (asSplitSeparator itm.1), pageNumItems content))
    else
      none
  | none => none

theorem pageRangeList_buildContent (items : List (Key × Value)) (hwf : pageWf items) :
    ∀ (fuel a b : Nat), b ≤ items.length → b - a ≤ fuel →
      pageRangeList (buildContent items) a b fuel = (items.drop a).take (b - a) := by
  intro fuel
  induction fuel with
  | zero =>
    intro a b hb hfb
    have : b - a = 0 := by omega
    rw [this]
    rfl
  | succ fuel ih =>
    intro a b hb hfb
    unfold pageRangeList
    by_cases hab : a < b
    · rw [if_pos hab]
      have ha : a < items.length := by omega
      rw [pageGet_buildContent items hwf a ha]
      rw [ih (a + 1) b hb (by omega)]
      rw [List.drop_eq_getElem_cons ha]
      rw [show b - a = (b - (a + 1)) + 1 by omega]
      rw [List.take_succ_cons]
      rfl
    · rw [if_neg hab]
      have : b - a = 0 := by omega
      rw [this, List.take_zero]

/-- Page-level reading of `pageRank`'s result on a built page (no sortedness
needed): `Ok i` means item `i`'s decoded key equals the target; `Err j` means
`j` is bracketed by a strictly-smaller predecessor and a strictly-greater
successor where those exist. -/
theorem pageRank_spec (items : List (Key × Value)) (hwf : pageWf items) (t : Key) :
    (∀ i, pageRank (buildContent items) t = .inl i →
      ∃ h : i < items.length, (items.get ⟨i, h⟩).1 = t) ∧
    (∀ j, pageRank (buildContent items) t = .inr j →
      j ≤ items.length ∧
      (j = 0 ∨ ∃ h : j - 1 < items.length, keyLt (items.get ⟨j - 1, h⟩).1 t) ∧
      (j = items.length ∨ ∃ h : j < items.length, keyLt t (items.get ⟨j, h⟩).1)) := by
  set keys : List Key := items.map Prod.fst with hkeys
  have hklen : keys.length = items.length := by simp [hkeys]
  have hk : ∀ i (h : i < keys.length),
      pageKeyAt (buildContent items) i = keys.get ⟨i, h⟩ := by
    intro i h
    rw [pageKeyAt_buildContent items hwf i (by omega)]
    simp [hkeys]
  have hrank : pageRank (buildContent items) t
      = pageRankGo (buildContent items) t keys.length 0 keys.length := by
    unfold pageRank
    rw [pageNumItems_buildContent items hwf, hklen]
  have main := pageRankGo_spec (buildContent items) t keys hk keys.length 0 keys.length
    (by omega) (by omega) (by omega) (Or.inl rfl) (Or.inl rfl)
  have kget : ∀ (i : Nat) (h : i < keys.length),
      keys.get ⟨i, h⟩ = (items.get ⟨i, by omega⟩).1 := by
    intro i h
    simp [hkeys]
  constructor
  · intro i h
    rw [hrank] at h
    obtain ⟨hi, he⟩ := main.1 i h
    exact ⟨by omega, by rw [← kget i hi, he]⟩
  · intro j h
    rw [hrank] at h
    obtain ⟨hj, hbl, hbr⟩ := main.2 j h
    refine ⟨by omega, ?_, ?_⟩
    · rcases hbl with h0 | ⟨hb, hlt⟩
      · exact Or.inl h0
      · exact Or.inr ⟨by omega, by rw [← kget (j - 1) hb]; exact hlt⟩
    · rcases hbr with h0 | ⟨hb, hlt⟩
      · exact Or.inl (by omega)
      · exact Or.inr ⟨by omega, by rw [← kget j hb]; exact hlt⟩

/-- C5: on a page built from items strictly ascending by key, when
`into_split_iter` returns `Some` with a separator and the two range
iterators, every key produced by the left iterator is strictly less than the
separator, every key produced by the right iterator is at or above it, the
concatenation reproduces the original item sequence exactly, and the ranges
are `[0, index)` / `[index, len)` for a non-zero rank index. -/
theorem spec_C5_split (items : List (Key × Value)) (hwf : pageWf items)
    (hasc : items.Pairwise (fun a b => keyLt a.1 b.1))
    (sep : Key) (lr rr : Nat × Nat)
    (h : intoSplitIter (buildContent items) = some (sep, lr, rr)) :
    (∀ it ∈ pageRangeList (buildContent items) lr.1 lr.2 items.length,
      keyLt it.1 sep) ∧
    (∀ it ∈ pageRangeList (buildContent items) rr.1 rr.2 items.length,
      keyLe sep it.1) ∧
    (pageRangeList (buildContent items) lr.1 lr.2 items.length ++
      pageRangeList (buildContent items) rr.1 rr.2 items.length = items) ∧
    lr.1 = 0 ∧ 0 < lr.2 ∧ rr.1 = lr.2 ∧ rr.2 = items.length := by
  have hplt : ∀ {m i : Nat} (hm : m < i) (hi : i < items.length),
      keyLt (items.get ⟨m, Nat.lt_trans hm hi⟩).1 (items.get ⟨i, hi⟩).1 :=
    fun hm hi => List.pairwise_iff_get.mp hasc _ _ hm
  have hple : ∀ {m i : Nat} (hm : m ≤ i) (hi : i < items.length),
      keyLe (items.get ⟨m, Nat.lt_of_le_of_lt hm hi⟩).1 (items.get ⟨i, hi⟩).1 := by
    intro m i hm hi
    rcases Nat.eq_or_lt_of_le hm with rfl | hmi
    · exact keyLe_refl _
    · exact keyLe_of_keyLt (hplt hmi hi)
  -- the split index is bracketed by the two side conditions
  have haux : ∀ (sep' : Key) (idx : Nat), idx ≤ items.length →
      (∀ (m : Nat) (hm : m < items.length), m < idx →
        keyLt (items.get ⟨m, hm⟩).1 sep') →
      (∀ (m : Nat) (hm : m < items.length), idx ≤ m →
        keyLe sep' (items.get ⟨m, hm⟩).1) →
      (∀ it ∈ pageRangeList (buildContent items) 0 idx items.length,
        keyLt it.1 sep') ∧
      (∀ it ∈ pageRangeList (buildContent items) idx items.length items.length,
        keyLe sep' it.1) ∧
      (pageRangeList (buildContent items) 0 idx items.length ++
        pageRangeList (buildContent items) idx items.length items.length = items) := by
    intro sep' idx hidx hleft hright
    have hL : pageRangeList (buildContent items) 0 idx items.length
        = items.take idx := by
      rw [pageRangeList_buildContent items hwf items.length 0 idx hidx (by omega)]
      simp
    have hR : pageRangeList (buildContent items) idx items.length items.length
        = items.drop idx := by
      rw [pageRangeList_buildContent items hwf items.length idx items.length
        (by omega) (by omega)]
      apply List.take_of_length_le
      simp
    refine ⟨?_, ?_, ?_⟩
    · intro it hit
      rw [hL] at hit
      obtain ⟨⟨m, hm⟩, rfl⟩ := List.mem_iff_get.mp hit
      have hmi : m < idx ∧ m < items.length := by
        have := hm
        simp only [List.length_take] at this
        omega
      have hgeta : (items.take idx).get ⟨m, hm⟩ = items.get ⟨m, hmi.2⟩ := by
        simp [List.getElem_take]
      rw [hgeta]
      exact hleft m hmi.2 hmi.1
    · intro it hit
      rw [hR] at hit
      obtain ⟨⟨m, hm⟩, rfl⟩ := List.mem_iff_get.mp hit
      have hjm : idx + m < items.length := by
        have := hm
        simp only [List.length_drop] at this
        omega
      have hgetb : (items.drop idx).get ⟨m, hm⟩ = items.get ⟨idx + m, hjm⟩ := by
        simp [List.getElem_drop]
      rw [hgetb]
      exact hright (idx + m) hjm (by omega)
    · rw [hL, hR]
      exact List.take_append_drop idx items
  unfold intoSplitIter at h
  split at h
  · rename_i itm hg
    split at h
    · rename_i hipos
      rw [Option.some_inj] at h
      simp only [Prod.mk.injEq] at h
      obtain ⟨rfl, rfl, rfl⟩ := h
      rw [pageNumItems_buildContent items hwf]
      have hbounds := pageRank_spec items hwf (asSplitSeparator itm.1)
      have hfacts : rankIndex (buildContent items) (asSplitSeparator itm.1)
            ≤ items.length ∧
          (∀ (m : Nat) (hm : m < items.length),
            m < rankIndex (buildContent items) (asSplitSeparator itm.1) →
            keyLt (items.get ⟨m, hm⟩).1 (asSplitSeparator itm.1)) ∧
          (∀ (m : Nat) (hm : m < items.length),
            rankIndex (buildContent items) (asSplitSeparator itm.1) ≤ m →
            keyLe (asSplitSeparator itm.1) (items.get ⟨m, hm⟩).1) := by
        rcases hr : pageRank (buildContent items) (asSplitSeparator itm.1)
          with i | i
        · have hri : rankIndex (buildContent items) (asSplitSeparator itm.1) = i := by
            unfold rankIndex
            rw [hr]
          rw [hri]
          obtain ⟨hi, hkeq⟩ := hbounds.1 i hr
          refine ⟨by omega, ?_, ?_⟩
          · intro m hm hmi
            have := hplt hmi hi
            rw [hkeq] at this
            exact this
          · intro m hm hmi
            have := hple hmi hm
            rw [hkeq] at this
            exact this
        · have hri : rankIndex (buildContent items) (asSplitSeparator itm.1) = i := by
            unfold rankIndex
            rw [hr]
          rw [hri]
          obtain ⟨hi, hbl, hbr⟩ := hbounds.2 i hr
          refine ⟨hi, ?_, ?_⟩
          · intro m hm hmi
            rcases hbl with h0 | ⟨hb, hlt⟩
            · omega
            · exact keyLt_of_keyLe_of_keyLt
                (hple (show m ≤ i - 1 by omega) hb) hlt
          · intro m hm hmi
            rcases hbr with h0 | ⟨hb, hlt⟩
            · omega
            · exact keyLe_of_keyLt
                (keyLt_of_keyLt_of_keyLe hlt (hple hmi hm))
      obtain ⟨hidx, hleft, hright⟩ := hfacts
      obtain ⟨c1, c2, c3⟩ := haux (asSplitSeparator itm.1)
        (rankIndex (buildContent items) (asSplitSeparator itm.1)) hidx hleft hright
      exact ⟨c1, c2, c3, rfl, hipos, rfl, rfl⟩
    · cases h
  · cases h

/-- Concrete three-item page used by the C5 witness. -/
def c5Items : List (Key × Value) :=
  [(⟨[1], 1⟩, .delete), (⟨[2], 1⟩, .delete), (⟨[3], 1⟩, .delete)]

/-- Witness for C5: the three-item page splits at index 2 with separator
`([2], u64::MAX)`. -/
theorem spec_C5_split_witness :
    pageWf c5Items ∧
    c5Items.Pairwise (fun a b => keyLt a.1 b.1) ∧
    intoSplitIter (buildContent c5Items)
      = some (⟨[2], 2^64 - 1⟩, (0, 2), (2, 3)) ∧
    ((∀ it ∈ pageRangeList (buildContent c5Items) 0 2 c5Items.length,
        keyLt it.1 ⟨[2], 2^64 - 1⟩) ∧
      (∀ it ∈ pageRangeList (buildContent c5Items) 2 3 c5Items.length,
        keyLe ⟨[2], 2^64 - 1⟩ it.1) ∧
      (pageRangeList (buildContent c5Items) 0 2 c5Items.length ++
        pageRangeList (buildContent c5Items) 2 3 c5Items.length = c5Items) ∧
      (0 : Nat) = 0 ∧ 0 < 2 ∧ (2 : Nat) = 2 ∧ (3 : Nat) = c5Items.length) :=
  ⟨by decide, by decide, by decide,
    spec_C5_split c5Items (by decide) (by decide)
      ⟨[2], 2^64 - 1⟩ (0, 2) (2, 3) (by decide)⟩

/-! ## Merging iterator (`OrderedIter` / `MergingIter`, `page/iter.rs`)

The sources are modelled as `SliceIter`s over `(Nat × α)` items (the generic
`K: Ord` key type instantiated at `Nat`, as in the crate's own test).  The
`BinaryHeap<Reverse<OrderedIter>>` is modelled as a list of cursor states;
`peek_mut` yields an element that is minimal in `OrderedIter`'s order, which
`extractMin` selects deterministically.
-/

/-- `OrderedIter` state: the tie-break rank, the buffered `next` item and the
remaining items of the underlying source. -/
structure OrdIter (α : Type) where
  rank : Nat
  next : Option (Nat × α)
  rest : List (Nat × α)
deriving DecidableEq, Repr

/-- The four arms of `OrderedIter::cmp`, on the two buffered items and the
two ranks. -/
def ordIterCmpAux {α : Type} :
    Option (Nat × α) → Option (Nat × α) → Nat → Nat → Ordering
  | some a, some b, rx, ry => (compare a.1 b.1).then (compare rx ry)
  | some _, none, _, _ => .lt
  | none, some _, _, _ => .gt
  | none, none, rx, ry => compare rx ry

/-- `OrderedIter::cmp`: order by the buffered item's key (an exhausted source
sorts last), breaking ties by rank. -/
def ordIterCmp {α : Type} (x y : OrdIter α) : Ordering :=
  ordIterCmpAux x.next y.next x.rank y.rank

/-- `OrderedIter::next`: return the buffered item, refill from the source. -/
def advanceOrd {α : Type} (it : OrdIter α) : OrdIter α :=
  { it with next := it.rest.head?, rest := it.rest.tail }

/-- Extract a minimal element of the heap (what `peek_mut` exposes): the
leftmost element not greater than every other. -/
def extractMin {α : Type} : List (OrdIter α) → Option (OrdIter α × List (OrdIter α))
  | [] => none
  | x :: xs =>
    match extractMin xs with
    | none => some (x, [])
    | some (m, rest) =>
      if ordIterCmp x m = .gt then some (m, x :: rest) else some (x, xs)

/-- `MergingIter::next`: advance the top-of-heap cursor and yield its buffered
item; `None` once the top (hence every) cursor is exhausted. -/
def mergeNext {α : Type} (l : List (OrdIter α)) :
    Option ((Nat × α) × List (OrdIter α)) :=
  match extractMin l with
  | none => none
  | some (m, rest) =>
    match m.next with
    | none => none
    | some item => some (item, advanceOrd m :: rest)

/-- Run the merge for at most `fuel` `next` calls. -/
def mergeRun {α : Type} : List (OrdIter α) → Nat → List (Nat × α)
  | _, 0 => []
  | l, fuel + 1 =>
    match mergeNext l with
    | none => []
    | some (item, l2) => item :: mergeRun l2 fuel

/-- `MergingIterBuilder::add` + `build`: source `i` gets rank `i` (its
insertion order); `init` buffers each source's first item. -/
def mkOrdIter {α : Type} (rank : Nat) (src : List (Nat × α)) : OrdIter α :=
  { rank := rank, next := src.head?, rest := src.tail }

/-- Build the initial heap from the sources in insertion order. -/
def mergingFromSources {α : Type} (srcs : List (List (Nat × α))) : List (OrdIter α) :=
  List.zipWith mkOrdIter (List.range srcs.length) srcs

theorem natThen_ne_gt {a b c d : Nat} :
    (compare a b).then (compare c d) ≠ .gt ↔ a < b ∨ (a = b ∧ c ≤ d) := by
  rw [Ne, ordering_then_gt]
  simp only [Nat.compare_eq_gt, Nat.compare_eq_eq]
  omega

theorem natThen_eq_gt {a b c d : Nat} :
    (compare a b).then (compare c d) = .gt ↔ b < a ∨ (a = b ∧ d < c) := by
  rw [ordering_then_gt]
  simp only [Nat.compare_eq_gt, Nat.compare_eq_eq]

theorem natCompare_ne_gt {a b : Nat} : compare a b ≠ .gt ↔ a ≤ b := by
  simp only [Ne, Nat.compare_eq_gt]
  omega

theorem ordIterCmp_def {α : Type} (x y : OrdIter α) :
    ordIterCmp x y = ordIterCmpAux x.next y.next x.rank y.rank := rfl

theorem ordIterCmp_self {α : Type} (x : OrdIter α) : ordIterCmp x x ≠ .gt := by
  rcases hx : x.next with _ | a <;>
    rw [ordIterCmp_def, hx] <;> simp only [ordIterCmpAux]
  · rw [natCompare_ne_gt]
  · rw [natThen_ne_gt]
    omega

theorem ordIterCmp_gt_swap {α : Type} {x y : OrdIter α}
    (h : ordIterCmp x y = .gt) : ordIterCmp y x ≠ .gt := by
  rcases hx : x.next with _ | a <;> rcases hy : y.next with _ | b <;>
    rw [ordIterCmp_def, hx, hy] at h <;> rw [ordIterCmp_def, hy, hx] <;>
    simp only [ordIterCmpAux] at h ⊢
  · rw [show compare x.rank y.rank = .gt ↔ y.rank < x.rank from Nat.compare_eq_gt] at h
    rw [natCompare_ne_gt]
    omega
  · simp
  · exact absurd h (by simp)
  · rw [natThen_eq_gt] at h
    rw [natThen_ne_gt]
    omega

theorem ordIterLe_trans {α : Type} {x y z : OrdIter α}
    (hxy : ordIterCmp x y ≠ .gt) (hyz : ordIterCmp y z ≠ .gt) :
    ordIterCmp x z ≠ .gt := by
  rcases hx : x.next with _ | a <;> rcases hy : y.next with _ | b <;>
    rcases hz : z.next with _ | c <;>
    rw [ordIterCmp_def, hx, hy] at hxy <;>
    rw [ordIterCmp_def, hy, hz] at hyz <;>
    rw [ordIterCmp_def, hx, hz] <;>
    simp only [ordIterCmpAux] at hxy hyz ⊢
  · -- x, y, z exhausted: rank order is transitive
    rw [natCompare_ne_gt] at hxy hyz ⊢
    omega
  · -- x, y exhausted, z buffered: y-z compares gt, but that contradicts hyz
    exact absurd rfl hyz
  · -- x exhausted, y buffered: x-y compares gt, contradiction
    exact absurd rfl hxy
  · exact absurd rfl hxy
  · -- x buffered, y, z exhausted: x sorts before z
    simp
  · -- x, z buffered, y exhausted: y-z compares gt, contradiction
    exact absurd rfl hyz
  · -- x, y buffered, z exhausted: x sorts before z
    simp
  · -- all buffered
    rw [natThen_ne_gt] at hxy hyz ⊢
    omega

theorem extractMin_eq_none {α : Type} :
    ∀ {xs : List (OrdIter α)}, extractMin xs = none → xs = [] := by
  intro xs h
  cases xs with
  | nil => rfl
  | cons y ys =>
    exfalso
    unfold extractMin at h
    split at h
    · cases h
    · split at h <;> cases h

theorem extractMin_spec {α : Type} :
    ∀ (l : List (OrdIter α)) (m : OrdIter α) (rest : List (OrdIter α)),
      extractMin l = some (m, rest) →
      m ∈ l ∧ ∀ t ∈ l, ordIterCmp m t ≠ .gt := by
  intro l
  induction l with
  | nil => intro m rest h; cases h
  | cons x xs ih =>
    intro m rest h
    unfold extractMin at h
    split at h
    · rename_i hnone
      cases h
      have hxs : xs = [] := extractMin_eq_none hnone
      subst hxs
      refine ⟨List.mem_singleton_self x, ?_⟩
      intro t ht
      rw [List.mem_singleton.mp ht]
      exact ordIterCmp_self x
    · rename_i m2 rest2 he
      obtain ⟨hm2mem, hm2min⟩ := ih m2 rest2 he
      split at h
      · rename_i hg
        cases h
        refine ⟨List.mem_cons_of_mem x hm2mem, ?_⟩
        intro t ht
        rcases List.mem_cons.mp ht with rfl | htx
        · exact ordIterCmp_gt_swap hg
        · exact hm2min t htx
      · rename_i hg
        cases h
        refine ⟨List.mem_cons_self x xs, ?_⟩
        intro t ht
        rcases List.mem_cons.mp ht with rfl | htx
        · exact ordIterCmp_self t
        · exact ordIterLe_trans hg (hm2min t htx)

/-! ## C7 -/

/-- C7: the four-source merge from the specification yields exactly the
stated ten-item sequence and then exhaustion; and in general, whenever the
merge extracts a source to yield an item, every source whose buffered item
carries an equal key has a rank at or above the extracted source's rank —
ties on key go to the earlier-added (lower-rank) source. -/
theorem spec_C7_merge :
    (mergeRun (mergingFromSources
        [[(1, 'a'), (3, 'a'), (7, 'a')],
         [(2, 'b'), (4, 'b')],
         [(1, 'c'), (2, 'c'), (8, 'c')],
         [(3, 'd'), (7, 'd')]]) 11
      = [(1, 'a'), (1, 'c'), (2, 'b'), (2, 'c'), (3, 'a'),
         (3, 'd'), (4, 'b'), (7, 'a'), (7, 'd'), (8, 'c')]) ∧
    (∀ (α : Type) (l : List (OrdIter α)) (m : OrdIter α) (rest : List (OrdIter α)),
      extractMin l = some (m, rest) →
      ∀ t ∈ l, ∀ k v, t.next = some (k, v) →
      ∀ vm, m.next = some (k, vm) →
      m.rank ≤ t.rank) := by
  constructor
  · decide
  · intro α l m rest hext t ht k v hv vm hvm
    obtain ⟨_, hmin⟩ := extractMin_spec l m rest hext
    have hcmp := hmin t ht
    unfold ordIterCmp at hcmp
    rw [hv, hvm] at hcmp
    simp only [ordIterCmpAux] at hcmp
    rw [natThen_ne_gt] at hcmp
    omega

/-- Witness for C7's general tie-break clause at the initial heap: source 0
(buffering `(1,'a')`) is extracted although source 2 also buffers key `1`. -/
theorem spec_C7_merge_witness :
    (extractMin (mergingFromSources
        [[(1, 'a'), (3, 'a'), (7, 'a')],
         [(2, 'b'), (4, 'b')],
         [(1, 'c'), (2, 'c'), (8, 'c')],
         [(3, 'd'), (7, 'd')]])
      = some (⟨0, some (1, 'a'), [(3, 'a'), (7, 'a')]⟩,
          [⟨1, some (2, 'b'), [(4, 'b')]⟩,
           ⟨2, some (1, 'c'), [(2, 'c'), (8, 'c')]⟩,
           ⟨3, some (3, 'd'), [(7, 'd')]⟩])) ∧
    (⟨2, some (1, 'c'), [(2, 'c'), (8, 'c')]⟩ : OrdIter Char) ∈
      mergingFromSources
        [[(1, 'a'), (3, 'a'), (7, 'a')],
         [(2, 'b'), (4, 'b')],
         [(1, 'c'), (2, 'c'), (8, 'c')],
         [(3, 'd'), (7, 'd')]] ∧
    (0 : Nat) ≤ 2 :=
  ⟨by decide, by decide,
    spec_C7_merge.2 Char
      (mergingFromSources
        [[(1, 'a'), (3, 'a'), (7, 'a')],
         [(2, 'b'), (4, 'b')],
         [(1, 'c'), (2, 'c'), (8, 'c')],
         [(3, 'd'), (7, 'd')]])
      ⟨0, some (1, 'a'), [(3, 'a'), (7, 'a')]⟩
      [⟨1, some (2, 'b'), [(4, 'b')]⟩,
       ⟨2, some (1, 'c'), [(2, 'c'), (8, 'c')]⟩,
       ⟨3, some (3, 'd'), [(7, 'd')]⟩]
      (by decide)
      ⟨2, some (1, 'c'), [(2, 'c'), (8, 'c')]⟩ (by decide)
      1 'c' (by decide) 'a' (by decide)⟩


/-! ## Manifest log (`store/manifest.rs`)

`VersionEdit` is opaque to the manifest (`encode_to_vec` produces its
payload bytes); it is modelled as the payload byte list itself.  The
directory is a map from manifest file numbers to contents, plus the
`CURRENT` pointer (the `u32` file number it stores) and the set of leftover
`curr.<n>.tmpdb` files.  Each fallible filesystem operation of one
`record_version_edit` call is driven by a `FaultPlan` flag (`true` =
succeeds); `sync_all` uses `expect` in the source (a panic, not an error
path) and is not modelled as fallible.
-/

/-- The error taxonomy seen by manifest callers: passthrough I/O failure or
`Error::Corrupted`. -/
inductive DbError where
  | ioError
  | corrupted
deriving DecidableEq, Repr

deriving instance DecidableEq for Except

/-- The manifest directory state. -/
structure Fs where
  files : List (Nat × List Nat)
  current : Option Nat
  tmps : List Nat
deriving DecidableEq, Repr

/-- Look a manifest file up by number. -/
def fsLookup : List (Nat × List Nat) → Nat → Option (List Nat)
  | [], _ => none
  | (k2, v) :: rest, k => if k2 = k then some v else fsLookup rest k

/-- `remove_file` on a manifest file. -/
def fsErase (files : List (Nat × List Nat)) (k : Nat) : List (Nat × List Nat) :=
  files.filter (fun p => p.1 ≠ k)

/-- Create or overwrite a manifest file. -/
def fsInsert (files : List (Nat × List Nat)) (k : Nat) (v : List Nat) :
    List (Nat × List Nat) :=
  (k, v) :: fsErase files k

/-- `VersionEditEncoder::encode`: `[u64 LE length][payload]`. -/
def encodeRecord (ve : List Nat) : List Nat := u64le ve.length ++ ve

/-- `MAX_MANIFEST_SIZE`: 128 MiB. -/
def maxManifestSize : Nat := 128 * 2^20

/-- The open `ManifestWriter`: the file its handle appends to and the
tracked `current_file_size`. -/
structure MWriter where
  fileNum : Nat
  size : Nat
deriving DecidableEq, Repr

/-- The in-memory `Manifest` state. -/
structure ManifestSt where
  maxFileSize : Nat
  nextFileId : Nat
  currentFileNum : Option Nat
  currentWriter : Option MWriter
deriving DecidableEq, Repr

/-- Which filesystem operations of one `record_version_edit` call succeed. -/
structure FaultPlan where
  createNewFile : Bool
  writeSnapshot : Bool
  writeEdit : Bool
  removeRolled : Bool
  createTmp : Bool
  writeTmp : Bool
  renameTmp : Bool
  removeTmp : Bool
deriving DecidableEq, Repr

/-- The fault-free plan. -/
def noFault : FaultPlan := ⟨true, true, true, true, true, true, true, true⟩

/-- `Manifest::set_current`: write the number into `curr.<n>.tmpdb`, sync,
rename over `CURRENT`; a failed rename removes the temporary file and
reports `Corrupted` (a failed removal propagates the I/O error and leaves
the temporary file behind). -/
def setCurrent (fs : Fs) (fileNum : Nat) (fp : FaultPlan) : Fs × Option DbError :=
  if fp.createTmp then
    let fs1 : Fs := { fs with tmps := fileNum :: fs.tmps }
    if fp.writeTmp then
      if fp.renameTmp then
        ({ fs1 with
            current := some fileNum
            tmps := fs1.tmps.filter (fun t => t ≠ fileNum) }, none)
      else
        if fp.removeTmp then
          ({ fs1 with tmps := fs1.tmps.filter (fun t => t ≠ fileNum) },
            some .corrupted)
        else (fs1, some .ioError)
    else (fs1, some .ioError)
  else (fs, some .ioError)

/-- `Manifest::record_version_edit`: returns the manifest state, the
directory state and the error (if any).  `current_writer` is `take`n up
front, so any early error return leaves it `None`; a roll happens when no
writer is open or the tracked size exceeds `max_file_size`; the roll writes
the snapshot record then the edit, removes the new file only when the edit
write fails, syncs, publishes `CURRENT` and adopts the new number; a
non-roll call appends the edit to the already-open file. -/
def recordVersionEdit (m : ManifestSt) (fs : Fs) (ve snap : List Nat)
    (fp : FaultPlan) : ManifestSt × Fs × Option DbError :=
  let fileNum := m.currentFileNum.getD 0
  let m1 : ManifestSt := { m with currentWriter := none }
  if m.currentWriter = none ∨ (m.currentWriter.getD ⟨0, 0⟩).size > m.maxFileSize then
    -- roll to a new file
    let newNum := fileNum + 1
    if fp.createNewFile then
      let fs1 : Fs := { fs with files := fsInsert fs.files newNum [] }
      if fp.writeSnapshot then
        let fs2 : Fs := { fs1 with
          files := fsInsert fs1.files newNum (encodeRecord snap) }
        if fp.writeEdit then
          let fs3 : Fs := { fs2 with
            files := fsInsert fs2.files newNum
              (encodeRecord snap ++ encodeRecord ve) }
          let written := (encodeRecord snap).length + (encodeRecord ve).length
          let step := setCurrent fs3 newNum fp
          match step.2 with
          | some e => (m1, step.1, some e)
          | none =>
            ({ m1 with
                currentFileNum := some newNum
                currentWriter := some ⟨newNum, written⟩ }, step.1, none)
        else
          if fp.removeRolled then
            (m1, { fs2 with files := fsErase fs2.files newNum }, some .ioError)
          else (m1, fs2, some .ioError)
      else (m1, fs1, some .ioError)
    else (m1, fs, some .ioError)
  else
    -- append to the open file
    let w := m.currentWriter.getD ⟨0, 0⟩
    if fp.writeEdit then
      let content := (fsLookup fs.files w.fileNum).getD []
      ({ m1 with currentWriter := some ⟨w.fileNum, w.size + (encodeRecord ve).length⟩ },
        { fs with files := fsInsert fs.files w.fileNum (content ++ encodeRecord ve) },
        none)
    else (m1, fs, some .ioError)

/-- `Manifest::open` on an existing directory state: `load_current` reads the
`CURRENT` pointer (absent → `None`), then `cleanup_obsolete_files` removes
every `*.tmpdb` file and every numbered manifest file below the pointer (all
of them when there is no pointer). -/
def openManifest (fs : Fs) : ManifestSt × Fs :=
  ({ maxFileSize := maxManifestSize
     nextFileId := 0
     currentFileNum := fs.current
     currentWriter := none },
   { files := (match fs.current with
      | some c => fs.files.filter (fun p => ¬ p.1 < c)
      | none => [])
     current := fs.current
     tmps := [] })

/-- The record-decoding loop of `list_versions`
(`while let Some(ve) = decoder.next_record().map_err(|_| Corrupted)?`):
`next_record` reads an 8-byte length prefix with `read_exact`, whose
`UnexpectedEof` (hit whenever fewer than 8 bytes remain, even 1-7) is turned
into a clean `None`; it then reads `len` payload bytes, whose short read is
an error that `list_versions` maps to `Corrupted`.  `fuel` bounds the number
of records; any `fuel ≥` the byte count suffices. -/
def decodeRecords : Nat → List Nat → Except DbError (List (List Nat))
  | 0, _ => .ok []
  | fuel + 1, rest =>
    if rest.length < 8 then .ok []
    else
      if (rest.drop 8).length < leVal (rest.take 8) then .error .corrupted
      else
        match decodeRecords fuel ((rest.drop 8).drop (leVal (rest.take 8))) with
        | .ok ves => .ok ((rest.drop 8).take (leVal (rest.take 8)) :: ves)
        | .error e => .error e

/-- `Manifest::list_versions`: no `CURRENT` → empty list; otherwise open the
referenced file (`File::open` fails if it is missing) and decode it to the
end. -/
def listVersions (m : ManifestSt) (fs : Fs) : Except DbError (List (List Nat)) :=
  match m.currentFileNum with
  | none => .ok []
  | some n =>
    match fsLookup fs.files n with
    | none => .error .ioError
    | some content => decodeRecords content.length content

theorem fsLookup_fsErase_self (files : List (Nat × List Nat)) (k : Nat) :
    fsLookup (fsErase files k) k = none := by
  induction files with
  | nil => rfl
  | cons p rest ih =>
    unfold fsErase at ih ⊢
    rw [List.filter_cons]
    by_cases hp : p.1 = k
    · rw [if_neg (by simp [hp])]
      exact ih
    · rw [if_pos (by simp [hp])]
      unfold fsLookup
      rw [if_neg hp]
      exact ih

theorem fsLookup_fsInsert_self (files : List (Nat × List Nat)) (k : Nat)
    (v : List Nat) : fsLookup (fsInsert files k v) k = some v := by
  unfold fsInsert fsLookup
  rw [if_pos rfl]


@[simp] theorem encodeRecord_length (ve : List Nat) :
    (encodeRecord ve).length = 8 + ve.length := by
  simp [encodeRecord]

/-! ## C1 -/

/-- C1 counterexample: with a published `CURRENT` of 1 and no open writer,
a roll to file 2 whose snapshot write fails propagates the error but leaves
the newly created (empty) `MANIFEST_2` in place — the claimed deletion does
not happen for snapshot-write failures. -/
theorem spec_C1_counterexample :
    (recordVersionEdit ⟨100, 0, some 1, none⟩ ⟨[(1, [7])], some 1, []⟩ [1] [2]
        ⟨true, false, true, true, true, true, true, true⟩).2.2
      = some .ioError ∧
    fsLookup (recordVersionEdit ⟨100, 0, some 1, none⟩ ⟨[(1, [7])], some 1, []⟩ [1] [2]
        ⟨true, false, true, true, true, true, true, true⟩).2.1.files 2
      = some [] := by
  decide

/-- C1 (amended): during a roll, if writing the triggering edit fails after
the snapshot record succeeded, `record_version_edit` deletes the newly
created manifest file before propagating the error; if writing the snapshot
record itself fails, the error propagates but the newly created (still
empty) manifest file is left behind; in both cases the previously published
`CURRENT` pointer is unchanged. -/
theorem spec_C1_roll_cleanup (m : ManifestSt) (fs : Fs) (ve snap : List Nat)
    (hroll : m.currentWriter = none ∨
      (m.currentWriter.getD ⟨0, 0⟩).size > m.maxFileSize) :
    ((recordVersionEdit m fs ve snap ⟨true, true, false, true, true, true, true, true⟩).2.2
        = some .ioError ∧
      fsLookup (recordVersionEdit m fs ve snap
          ⟨true, true, false, true, true, true, true, true⟩).2.1.files
        (m.currentFileNum.getD 0 + 1) = none ∧
      (recordVersionEdit m fs ve snap
        ⟨true, true, false, true, true, true, true, true⟩).2.1.current = fs.current) ∧
    ((recordVersionEdit m fs ve snap ⟨true, false, true, true, true, true, true, true⟩).2.2
        = some .ioError ∧
      fsLookup (recordVersionEdit m fs ve snap
          ⟨true, false, true, true, true, true, true, true⟩).2.1.files
        (m.currentFileNum.getD 0 + 1) = some [] ∧
      (recordVersionEdit m fs ve snap
        ⟨true, false, true, true, true, true, true, true⟩).2.1.current = fs.current) := by
  unfold recordVersionEdit
  constructor
  · rw [if_pos hroll]
    refine ⟨?_, ?_, ?_⟩ <;> simp [fsLookup_fsErase_self, fsLookup_fsInsert_self]
  · rw [if_pos hroll]
    refine ⟨?_, ?_, ?_⟩ <;> simp [fsLookup_fsErase_self, fsLookup_fsInsert_self]

/-- Witness for C1 at a concrete one-file directory. -/
theorem spec_C1_roll_cleanup_witness :
    ((⟨100, 0, some 1, none⟩ : ManifestSt).currentWriter = none ∨
      ((⟨100, 0, some 1, none⟩ : ManifestSt).currentWriter.getD ⟨0, 0⟩).size
        > (⟨100, 0, some 1, none⟩ : ManifestSt).maxFileSize) ∧
    (((recordVersionEdit ⟨100, 0, some 1, none⟩ ⟨[(1, [7])], some 1, []⟩ [1] [2]
          ⟨true, true, false, true, true, true, true, true⟩).2.2
        = some .ioError ∧
      fsLookup (recordVersionEdit ⟨100, 0, some 1, none⟩ ⟨[(1, [7])], some 1, []⟩ [1] [2]
          ⟨true, true, false, true, true, true, true, true⟩).2.1.files
        ((⟨100, 0, some 1, none⟩ : ManifestSt).currentFileNum.getD 0 + 1) = none ∧
      (recordVersionEdit ⟨100, 0, some 1, none⟩ ⟨[(1, [7])], some 1, []⟩ [1] [2]
        ⟨true, true, false, true, true, true, true, true⟩).2.1.current
          = (⟨[(1, [7])], some 1, []⟩ : Fs).current) ∧
    ((recordVersionEdit ⟨100, 0, some 1, none⟩ ⟨[(1, [7])], some 1, []⟩ [1] [2]
          ⟨true, false, true, true, true, true, true, true⟩).2.2
        = some .ioError ∧
      fsLookup (recordVersionEdit ⟨100, 0, some 1, none⟩ ⟨[(1, [7])], some 1, []⟩ [1] [2]
          ⟨true, false, true, true, true, true, true, true⟩).2.1.files
        ((⟨100, 0, some 1, none⟩ : ManifestSt).currentFileNum.getD 0 + 1) = some [] ∧
      (recordVersionEdit ⟨100, 0, some 1, none⟩ ⟨[(1, [7])], some 1, []⟩ [1] [2]
        ⟨true, false, true, true, true, true, true, true⟩).2.1.current
          = (⟨[(1, [7])], some 1, []⟩ : Fs).current)) :=
  ⟨Or.inl rfl,
    spec_C1_roll_cleanup ⟨100, 0, some 1, none⟩ ⟨[(1, [7])], some 1, []⟩ [1] [2]
      (Or.inl rfl)⟩

/-! ## C3 -/

theorem decodeRecords_encode :
    ∀ (l : List (List Nat)) (fuel : Nat),
      ((l.map encodeRecord).flatten).length ≤ fuel →
      (∀ ve ∈ l, ve.length < 2^64) →
      decodeRecords fuel ((l.map encodeRecord).flatten) = .ok l := by
  intro l
  induction l with
  | nil =>
    intro fuel hf hwf
    cases fuel with
    | zero => rfl
    | succ fuel =>
      unfold decodeRecords
      rw [if_pos (by simp)]
  | cons ve rest ih =>
    intro fuel hf hwf
    have hshape : ((ve :: rest).map encodeRecord).flatten
        = u64le ve.length ++ (ve ++ (rest.map encodeRecord).flatten) := by
      simp [encodeRecord]
    cases fuel with
    | zero =>
      exfalso
      rw [hshape] at hf
      simp at hf
    | succ fuel =>
      unfold decodeRecords
      rw [hshape]
      rw [if_neg (by simp)]
      have htake : (u64le ve.length ++ (ve ++ (rest.map encodeRecord).flatten)).take 8
          = u64le ve.length := List.take_left' (by simp)
      have hdrop : (u64le ve.length ++ (ve ++ (rest.map encodeRecord).flatten)).drop 8
          = ve ++ (rest.map encodeRecord).flatten := List.drop_left' (by simp)
      rw [htake, hdrop, leVal_u64le_of_lt (hwf ve (List.mem_cons_self ve rest))]
      rw [if_neg (by simp)]
      rw [List.take_left' rfl, List.drop_left' rfl]
      rw [ih fuel (by rw [hshape] at hf; simp at hf ⊢; omega)
        (fun v hv => hwf v (List.mem_cons_of_mem ve hv))]

/-- C3 (amended): the decode loop of `list_versions` stops cleanly whenever
reading the next 8-byte length prefix hits end-of-file — including when 1-7
trailing bytes remain, so a truncated length prefix is silently treated as a
clean end of log, not reported as `Corrupted`; a payload shorter than its
declared length yields `Corrupted` to the caller; a well-formed file decodes
to exactly its records; and `list_versions` returns exactly what the decode
loop produces on the current file's contents. -/
theorem spec_C3_decode :
    (∀ (fuel : Nat) (rest : List Nat), rest.length < 8 →
      decodeRecords fuel rest = .ok []) ∧
    (∀ (fuel : Nat) (rest : List Nat), 1 ≤ fuel → 8 ≤ rest.length →
      rest.length - 8 < leVal (rest.take 8) →
      decodeRecords fuel rest = .error .corrupted) ∧
    (∀ (l : List (List Nat)) (fuel : Nat),
      ((l.map encodeRecord).flatten).length ≤ fuel →
      (∀ ve ∈ l, ve.length < 2^64) →
      decodeRecords fuel ((l.map encodeRecord).flatten) = .ok l) ∧
    (∀ (m : ManifestSt) (fs : Fs) (n : Nat) (content : List Nat),
      m.currentFileNum = some n → fsLookup fs.files n = some content →
      listVersions m fs = decodeRecords content.length content) := by
  refine ⟨?_, ?_, decodeRecords_encode, ?_⟩
  · intro fuel rest hlt
    cases fuel with
    | zero => rfl
    | succ fuel =>
      unfold decodeRecords
      rw [if_pos hlt]
  · intro fuel rest hfuel hge hshort
    cases fuel with
    | zero => omega
    | succ fuel =>
      unfold decodeRecords
      rw [if_neg (by omega)]
      rw [if_pos (by simp only [List.length_drop]; omega)]
  · intro m fs n content hn hc
    unfold listVersions
    rw [hn]
    simp [hc]

/-- C3 counterexample: a current manifest file holding only 4 bytes (a
length prefix truncated to fewer than 8 bytes) makes `list_versions` return
a clean empty list, not the `Corrupted` error the claim requires. -/
theorem spec_C3_counterexample :
    listVersions ⟨maxManifestSize, 0, some 1, none⟩ ⟨[(1, [0, 0, 0, 0])], some 1, []⟩
        = .ok [] ∧
    listVersions ⟨maxManifestSize, 0, some 1, none⟩ ⟨[(1, [0, 0, 0, 0])], some 1, []⟩
        ≠ .error .corrupted := by
  constructor
  · rfl
  · intro h
    cases h

/-- Witness for C3's conjuncts at concrete byte strings. -/
theorem spec_C3_decode_witness :
    decodeRecords 7 [0, 0, 0, 0] = .ok [] ∧
    decodeRecords 12 (u64le 5 ++ [1, 2]) = .error .corrupted ∧
    decodeRecords 26 ((([[7], [8, 9]].map encodeRecord)).flatten) = .ok [[7], [8, 9]] ∧
    listVersions ⟨maxManifestSize, 0, some 3, none⟩ ⟨[(3, [9])], some 3, []⟩
      = decodeRecords 1 [9] :=
  ⟨spec_C3_decode.1 7 [0, 0, 0, 0] (by decide),
    spec_C3_decode.2.1 12 (u64le 5 ++ [1, 2]) (by decide) (by decide) (by decide),
    spec_C3_decode.2.2.1 [[7], [8, 9]] 26 (by decide) (by decide),
    spec_C3_decode.2.2.2 ⟨maxManifestSize, 0, some 3, none⟩ ⟨[(3, [9])], some 3, []⟩
      3 [9] rfl rfl⟩


/-! ## C2 -/

/-- `Manifest::open` on an empty directory: no `CURRENT`, nothing open. -/
def emptyFs : Fs := ⟨[], none, []⟩

/-- A freshly opened manifest with the given size threshold. -/
def freshManifest (maxSize : Nat) : ManifestSt :=
  ⟨maxSize, 0, none, none⟩

/-- Run a sequence of `record_version_edit` calls (each edit paired with the
snapshot its call's `version_snapshot` would produce), stopping at the first
error. -/
def runEdits : ManifestSt → Fs → List (List Nat × List Nat) →
    ManifestSt × Fs × Option DbError
  | m, fs, [] => (m, fs, none)
  | m, fs, e :: rest =>
    match recordVersionEdit m fs e.1 e.2 noFault with
    | (m2, fs2, none) => runEdits m2 fs2 rest
    | (m2, fs2, some err) => (m2, fs2, some err)

/-- Reference state of the current manifest file: its number, the records it
holds and its tracked size. -/
structure RefSt where
  fileNum : Nat
  records : List (List Nat)
  size : Nat
deriving DecidableEq, Repr

/-- One reference step: a roll starts the new file with the snapshot then
the rolling edit; an append adds the edit to the current file. -/
def refStep (maxSize : Nat) (st : RefSt) (e : List Nat × List Nat) : RefSt :=
  if st.size > maxSize then
    ⟨st.fileNum + 1, [e.2, e.1],
      (encodeRecord e.2).length + (encodeRecord e.1).length⟩
  else
    ⟨st.fileNum, st.records ++ [e.1], st.size + (encodeRecord e.1).length⟩

/-- The state after the very first edit (which always rolls, to file 1). -/
def refInit (e : List Nat × List Nat) : RefSt :=
  ⟨1, [e.2, e.1], (encodeRecord e.2).length + (encodeRecord e.1).length⟩

/-- The fault-free execution invariant tying the manifest and directory
states to the reference state of the current file. -/
def Inv (maxSize : Nat) (m : ManifestSt) (fs : Fs) (st : RefSt) : Prop :=
  m.maxFileSize = maxSize ∧
  m.currentFileNum = some st.fileNum ∧
  m.currentWriter = some ⟨st.fileNum, st.size⟩ ∧
  fs.current = some st.fileNum ∧
  fsLookup fs.files st.fileNum = some ((st.records.map encodeRecord).flatten) ∧
  fs.tmps = [] ∧
  (∀ p ∈ fs.files, p.1 ≤ st.fileNum) ∧
  st.size = ((st.records.map encodeRecord).flatten).length ∧
  (∀ r ∈ st.records, r.length < 2^64)

theorem record_init (maxSize : Nat) (ve snap : List Nat) :
    recordVersionEdit (freshManifest maxSize) emptyFs ve snap noFault
      = ({ maxFileSize := maxSize
           nextFileId := 0
           currentFileNum := some 1
           currentWriter :=
             some ⟨1, (encodeRecord snap).length + (encodeRecord ve).length⟩ },
         { files := [(1, encodeRecord snap ++ encodeRecord ve)]
           current := some 1
           tmps := [] },
         none) := rfl

theorem inv_init (maxSize : Nat) (ve snap : List Nat)
    (hwv : ve.length < 2^64) (hws : snap.length < 2^64) :
    Inv maxSize (recordVersionEdit (freshManifest maxSize) emptyFs ve snap noFault).1
      (recordVersionEdit (freshManifest maxSize) emptyFs ve snap noFault).2.1
      (refInit (ve, snap)) := by
  rw [record_init]
  refine ⟨rfl, rfl, rfl, rfl, ?_, rfl, ?_, ?_, ?_⟩
  · unfold fsLookup refInit
    simp
  · intro p hp
    unfold refInit
    rcases List.mem_singleton.mp hp with rfl
    exact Nat.le_refl 1
  · unfold refInit
    simp
  · intro r hr
    unfold refInit at hr
    simp at hr
    rcases hr with rfl | rfl
    · exact hws
    · exact hwv

theorem fsLookup_cons (p : Nat × List Nat) (rest : List (Nat × List Nat)) (k : Nat) :
    fsLookup (p :: rest) k = if p.1 = k then some p.2 else fsLookup rest k := rfl

theorem fsLookup_fsErase_ne (files : List (Nat × List Nat)) {k k2 : Nat}
    (h : k ≠ k2) : fsLookup (fsErase files k) k2 = fsLookup files k2 := by
  induction files with
  | nil => rfl
  | cons p rest ih =>
    unfold fsErase at ih ⊢
    rw [List.filter_cons]
    by_cases hp : p.1 = k
    · rw [if_neg (by simp [hp])]
      rw [ih, fsLookup_cons, if_neg (by rw [hp]; exact h)]
    · rw [if_pos (by simp [hp])]
      rw [fsLookup_cons, fsLookup_cons]
      by_cases hq : p.1 = k2
      · rw [if_pos hq, if_pos hq]
      · rw [if_neg hq, if_neg hq, ih]

theorem fsLookup_fsInsert_ne (files : List (Nat × List Nat)) {k k2 : Nat}
    (v : List Nat) (h : k ≠ k2) :
    fsLookup (fsInsert files k v) k2 = fsLookup files k2 := by
  unfold fsInsert
  rw [fsLookup_cons, if_neg h, fsLookup_fsErase_ne files h]

theorem mem_fsErase {files : List (Nat × List Nat)} {k : Nat} {p : Nat × List Nat}
    (hp : p ∈ fsErase files k) : p ∈ files :=
  List.mem_of_mem_filter hp

theorem record_step (maxSize : Nat) (m : ManifestSt) (fs : Fs) (st : RefSt)
    (hinv : Inv maxSize m fs st) (ve snap : List Nat)
    (hwv : ve.length < 2^64) (hws : snap.length < 2^64) :
    (recordVersionEdit m fs ve snap noFault).2.2 = none ∧
    Inv maxSize (recordVersionEdit m fs ve snap noFault).1
      (recordVersionEdit m fs ve snap noFault).2.1
      (refStep maxSize st (ve, snap)) := by
  obtain ⟨hmax, hcfn, hcw, hcur, hlook, htmps, hkeys, hsize, hrwf⟩ := hinv
  unfold recordVersionEdit
  rw [hcw, hcfn, hmax]
  simp only [Option.getD_some]
  by_cases hroll : st.size > maxSize
  · -- roll to file st.fileNum + 1
    rw [if_pos (Or.inr hroll)]
    unfold noFault setCurrent
    simp only [if_true, htmps]
    unfold refStep
    rw [if_pos hroll]
    unfold Inv
    refine ⟨trivial, rfl, rfl, rfl, rfl, ?_, ?_, ?_, ?_, ?_⟩
    · rw [fsLookup_fsInsert_self]
      simp
    · simp
    · intro p hp
      rcases List.mem_cons.mp hp with rfl | hp
      · exact Nat.le_refl _
      · have hp2 := mem_fsErase hp
        rcases List.mem_cons.mp hp2 with rfl | hp3
        · exact Nat.le_refl _
        · have hp4 := mem_fsErase hp3
          rcases List.mem_cons.mp hp4 with rfl | hp5
          · exact Nat.le_refl _
          · exact Nat.le_succ_of_le (hkeys p (mem_fsErase hp5))
    · simp
    · intro r hr
      simp only [List.mem_cons, List.mem_singleton] at hr
      rcases hr with rfl | rfl | h
      · exact hws
      · exact hwv
      · cases h
  · -- append to the open file st.fileNum
    rw [if_neg (by simp; omega)]
    unfold noFault
    simp only [if_true]
    unfold refStep
    rw [if_neg hroll]
    unfold Inv
    refine ⟨trivial, rfl, rfl, rfl, hcur, ?_, htmps, ?_, ?_, ?_⟩
    · rw [fsLookup_fsInsert_self, hlook]
      simp
    · intro p hp
      rcases List.mem_cons.mp hp with rfl | hp2
      · exact Nat.le_refl _
      · exact hkeys p (mem_fsErase hp2)
    · rw [hsize]
      simp
    · intro r hr
      simp only [List.mem_append, List.mem_singleton] at hr
      rcases hr with h | rfl
      · exact hrwf r h
      · exact hwv

theorem runEdits_inv (maxSize : Nat) :
    ∀ (edits : List (List Nat × List Nat)) (m : ManifestSt) (fs : Fs) (st : RefSt),
      Inv maxSize m fs st →
      (∀ e ∈ edits, e.1.length < 2^64 ∧ e.2.length < 2^64) →
      (runEdits m fs edits).2.2 = none ∧
      Inv maxSize (runEdits m fs edits).1 (runEdits m fs edits).2.1
        (edits.foldl (refStep maxSize) st) := by
  intro edits
  induction edits with
  | nil => intro m fs st hinv hwf; exact ⟨rfl, hinv⟩
  | cons e rest ih =>
    intro m fs st hinv hwf
    obtain ⟨herr, hinv2⟩ := record_step maxSize m fs st hinv e.1 e.2
      (hwf e (List.mem_cons_self e rest)).1 (hwf e (List.mem_cons_self e rest)).2
    have hr : recordVersionEdit m fs e.1 e.2 noFault
        = ((recordVersionEdit m fs e.1 e.2 noFault).1,
           (recordVersionEdit m fs e.1 e.2 noFault).2.1, none) := by
      rw [← herr]
    unfold runEdits
    rw [hr]
    exact ih _ _ _ hinv2 (fun e2 he2 => hwf e2 (List.mem_cons_of_mem e he2))

/-- The reference records always consist of the snapshot of the latest roll
followed by the edits at or after that roll, in order. -/
theorem foldl_refStep_shape (maxSize : Nat) :
    ∀ (rest pre : List (List Nat × List Nat)) (st : RefSt),
      (∃ (i : Nat) (h : i < pre.length),
        st.records = (pre.get ⟨i, h⟩).2 :: (pre.map Prod.fst).drop i) →
      ∃ (i : Nat) (h : i < (pre ++ rest).length),
        (rest.foldl (refStep maxSize) st).records
          = ((pre ++ rest).get ⟨i, h⟩).2 :: ((pre ++ rest).map Prod.fst).drop i := by
  intro rest
  induction rest with
  | nil =>
    intro pre st hshape
    simpa using hshape
  | cons e rest2 ih =>
    intro pre st hshape
    rw [List.foldl_cons]
    have hassoc : pre ++ e :: rest2 = (pre ++ [e]) ++ rest2 := by simp
    rw [hassoc]
    apply ih (pre ++ [e]) (refStep maxSize st e)
    unfold refStep
    by_cases hroll : st.size > maxSize
    · rw [if_pos hroll]
      refine ⟨pre.length, by simp, ?_⟩
      have hget : ((pre ++ [e]).get ⟨pre.length, by simp⟩) = e := by
        simp
      rw [hget]
      simp
    · rw [if_neg hroll]
      obtain ⟨i, hi, hrec⟩ := hshape
      have hi2 : i < (pre ++ [e]).length := by simp; omega
      refine ⟨i, hi2, ?_⟩
      show st.records ++ [e.1]
        = ((pre ++ [e]).get ⟨i, hi2⟩).2 :: ((pre ++ [e]).map Prod.fst).drop i
      have hget : (pre ++ [e]).get ⟨i, hi2⟩ = pre.get ⟨i, hi⟩ := by
        rw [List.get_eq_getElem, List.get_eq_getElem,
          List.getElem_append_left hi]
      rw [hget, hrec, List.map_append,
        List.drop_append_of_le_length (by simp_all; omega)]
      simp
theorem fsLookup_filter_not_lt (files : List (Nat × List Nat)) (n : Nat) :
    fsLookup (files.filter (fun p => ¬ p.1 < n)) n = fsLookup files n := by
  induction files with
  | nil => rfl
  | cons p rest ih =>
    rw [List.filter_cons]
    by_cases hp : p.1 = n
    · rw [if_pos (by simp [hp])]
      rw [fsLookup_cons, fsLookup_cons, if_pos hp, if_pos hp]
    · by_cases hlt : p.1 < n
      · rw [if_neg (by simp [hlt])]
        rw [ih, fsLookup_cons, if_neg hp]
      · rw [if_pos (by simp [hlt])]
        rw [fsLookup_cons, fsLookup_cons, if_neg hp, if_neg hp, ih]

theorem runEdits_from_scratch (maxSize : Nat) (e0 : List Nat × List Nat)
    (rest : List (List Nat × List Nat))
    (hwf : ∀ e ∈ e0 :: rest, e.1.length < 2^64 ∧ e.2.length < 2^64) :
    (runEdits (freshManifest maxSize) emptyFs (e0 :: rest)).2.2 = none ∧
    Inv maxSize (runEdits (freshManifest maxSize) emptyFs (e0 :: rest)).1
      (runEdits (freshManifest maxSize) emptyFs (e0 :: rest)).2.1
      (rest.foldl (refStep maxSize) (refInit e0)) := by
  have hinv0 := inv_init maxSize e0.1 e0.2
    (hwf e0 (List.mem_cons_self e0 rest)).1 (hwf e0 (List.mem_cons_self e0 rest)).2
  rw [record_init] at hinv0
  unfold runEdits
  rw [record_init maxSize e0.1 e0.2]
  exact runEdits_inv maxSize rest _ _ _ hinv0
    (fun e2 he2 => hwf e2 (List.mem_cons_of_mem e0 he2))

/-- C2 (amended): after writing a non-empty sequence of edits (with K ≥ 1
rolls — the first write always rolls), reopening the manifest and calling
`list_versions` replays the snapshot supplied at the most recent roll
followed by exactly the edits recorded at or after that roll, in their
original order — not all N edits. -/
theorem spec_C2_replay (maxSize : Nat) (e0 : List Nat × List Nat)
    (rest : List (List Nat × List Nat))
    (hwf : ∀ e ∈ e0 :: rest, e.1.length < 2^64 ∧ e.2.length < 2^64) :
    (runEdits (freshManifest maxSize) emptyFs (e0 :: rest)).2.2 = none ∧
    listVersions
        (openManifest (runEdits (freshManifest maxSize) emptyFs (e0 :: rest)).2.1).1
        (openManifest (runEdits (freshManifest maxSize) emptyFs (e0 :: rest)).2.1).2
      = .ok ((rest.foldl (refStep maxSize) (refInit e0)).records) ∧
    ∃ (i : Nat) (h : i < (e0 :: rest).length),
      (rest.foldl (refStep maxSize) (refInit e0)).records
        = ((e0 :: rest).get ⟨i, h⟩).2 :: ((e0 :: rest).map Prod.fst).drop i := by
  obtain ⟨herr, hinv⟩ := runEdits_from_scratch maxSize e0 rest hwf
  obtain ⟨hmax, hcfn, hcw, hcur, hlook, htmps, hkeys, hsize, hrwf⟩ := hinv
  refine ⟨herr, ?_, ?_⟩
  · unfold openManifest listVersions
    simp only [hcur]
    rw [fsLookup_filter_not_lt, hlook]
    exact decodeRecords_encode _ _ (Nat.le_refl _) hrwf
  · have hshape := foldl_refStep_shape maxSize rest [e0] (refInit e0)
      ⟨0, by simp, by simp [refInit]⟩
    simpa using hshape

/-- C2 counterexample: two edits `[1]`, `[2]` with empty snapshots and a
zero size threshold (so both calls roll); after reopening, `list_versions`
replays the second roll's snapshot and the second edit — three records were
written in two files, and the result `[[], [2]]` is not the two original
edits `[[1], [2]]`. -/
theorem spec_C2_counterexample :
    (runEdits (freshManifest 0) emptyFs [([1], []), ([2], [])]).2.2 = none ∧
    listVersions
        (openManifest (runEdits (freshManifest 0) emptyFs [([1], []), ([2], [])]).2.1).1
        (openManifest (runEdits (freshManifest 0) emptyFs [([1], []), ([2], [])]).2.1).2
      = .ok [[], [2]] ∧
    (Except.ok [[], [2]] : Except DbError (List (List Nat)))
      ≠ .ok [[1], [2]] := by
  refine ⟨by decide, by decide, ?_⟩
  intro h
  simp at h

/-- Witness for C2 at the two-edit run with threshold 0. -/
theorem spec_C2_replay_witness :
    (∀ e ∈ [(([1] : List Nat), ([] : List Nat)), ([2], [])],
      e.1.length < 2^64 ∧ e.2.length < 2^64) ∧
    ((runEdits (freshManifest 0) emptyFs [([1], []), ([2], [])]).2.2 = none ∧
      listVersions
          (openManifest (runEdits (freshManifest 0) emptyFs [([1], []), ([2], [])]).2.1).1
          (openManifest (runEdits (freshManifest 0) emptyFs [([1], []), ([2], [])]).2.1).2
        = .ok (([([2], [])].foldl (refStep 0) (refInit ([1], []))).records) ∧
      ∃ (i : Nat) (h : i < ([([1], []), ([2], [])] : List (List Nat × List Nat)).length),
        (([([2], [])].foldl (refStep 0) (refInit ([1], []))).records)
          = (([([1], []), ([2], [])] : List (List Nat × List Nat)).get ⟨i, h⟩).2 ::
            (([([1], []), ([2], [])] : List (List Nat × List Nat)).map Prod.fst).drop i) :=
  ⟨by decide, spec_C2_replay 0 ([1], []) [([2], [])] (by decide)⟩


/-! ## File reader (`file/file_reader.rs`) and C9

The underlying `AsyncRead + AsyncSeek` reader is modelled as the file's byte
content; the `Count` of `utils/atomic.rs` (an `AtomicU64` with relaxed
`get`/`add`) is a plain number in this sequential model.  `read_exact_at`
returns the updated reader alongside the bytes read into the caller's
buffer.
-/

/-- `BlockHandle`: offset and length of a block. -/
structure BlockHandle where
  offset : Nat
  length : Nat
deriving DecidableEq, Repr

/-- `FileReader`: the reader, the direct-I/O flag, the alignment, the file
size, and the `read_bytes` counter. -/
structure FileReader where
  fileData : List Nat
  useDirect : Bool
  alignSize : Nat
  fileSize : Nat
  readBytes : Nat
deriving DecidableEq, Repr

/-- `FileReader::from`: the counter starts at `Count::default()`, i.e. 0. -/
def fileReaderFrom (reader : List Nat) (useDirect : Bool)
    (alignSize fileSize : Nat) : FileReader :=
  ⟨reader, useDirect, alignSize, fileSize, 0⟩

/-- `FileReader::read_exact_at`: an empty buffer returns at once; the
buffered (non-direct) path seeks to the offset and reads exactly the
buffer's length (an I/O error past end-of-file); the direct path does
nothing and leaves the buffer zeroed.  No path updates `read_bytes`. -/
def read_exact_at (fr : FileReader) (bufLen reqOffset : Nat) :
    Except DbError (FileReader × List Nat) :=
  if bufLen = 0 then .ok (fr, [])
  else if fr.useDirect = false then
    if reqOffset + bufLen ≤ fr.fileData.length then
      .ok (fr, (fr.fileData.drop reqOffset).take bufLen)
    else .error .ioError
  else .ok (fr, List.replicate bufLen 0)

/-- `FileReader::read_block`: allocate `length` bytes and `read_exact_at`. -/
def read_block (fr : FileReader) (bh : BlockHandle) :
    Except DbError (FileReader × List Nat) :=
  read_exact_at fr bh.length bh.offset

/-- `FileReader::total_read_bytes`: `self.read_bytes.get()`. -/
def total_read_bytes (fr : FileReader) : Nat := fr.readBytes

/-- C9 (code bug): `read_bytes` is declared and initialised to zero but
never incremented anywhere in `file_reader.rs`; a successful 4-byte
`read_block` returns the reader with its counter still at 0, not 4 — the
accumulation the claim (and the field's own comment) describes does not
happen. -/
theorem spec_C9_counter_never_incremented :
    read_block (fileReaderFrom [1, 2, 3, 4] false 512 4) ⟨0, 4⟩
      = .ok (fileReaderFrom [1, 2, 3, 4] false 512 4, [1, 2, 3, 4]) ∧
    total_read_bytes (fileReaderFrom [1, 2, 3, 4] false 512 4) = 0 ∧
    (0 : Nat) ≠ 4 := by
  decide

/-! ## Page header (`page/base.rs`) and C10

The page is its raw byte buffer; multi-byte reads are little-endian (the
x86 native order of the raw pointer reads).
-/

/-- Page tier: bit 0 of the flags byte. -/
inductive PageTier where
  | leaf
  | inner
deriving DecidableEq, Repr

/-- Page kind: bits 1-3 of the flags byte. -/
inductive PageKind where
  | data
  | split
deriving DecidableEq, Repr

/-- `From<u8> for PageTier` (mask `0b0000_0001`). -/
def tierOfByte (b : Nat) : PageTier :=
  if b % 2 = 0 then .leaf else .inner

/-- `From<u8> for PageKind` (mask `0b0000_1110`; other values are
`unreachable!()`, modelled as `none`). -/
def kindOfByte (b : Nat) : Option PageKind :=
  if b &&& 14 = 0 then some .data
  else if b &&& 14 = 2 then some .split
  else none

/-- `PagePtr::epoch`: u64 read of bytes 0..8, masked to 48 bits
(`PAGE_EPOCH_MAX`). -/
def pageEpoch (buf : List Nat) : Nat := leVal (buf.take 8) % 2^48

/-- `PagePtr::flags`: the byte at offset 6 (`PAGE_HEADER_LEN`). -/
def pageFlagsByte (buf : List Nat) : Nat := buf.getD 6 0

/-- `PagePtr::kind`. -/
def pageKind (buf : List Nat) : Option PageKind := kindOfByte (pageFlagsByte buf)

/-- `PagePtr::tier`. -/
def pageTier (buf : List Nat) : PageTier := tierOfByte (pageFlagsByte buf)

/-- `PagePtr::chain_len`: the byte at offset 7. -/
def pageChainLen (buf : List Nat) : Nat := buf.getD 7 0

/-- `PagePtr::chain_next`: u64 read of bytes 8..16. -/
def pageChainNext (buf : List Nat) : Nat := leVal ((buf.drop 8).take 8)

/-- `PageInfo`: packed meta word (the first 8 header bytes as one u64),
chain-next and size. -/
structure PageInfo where
  meta : Nat
  next : Nat
  size : Nat
deriving DecidableEq, Repr

/-- `PagePtr::info`: read the meta word, the chain-next and the length. -/
def pageInfo (buf : List Nat) : PageInfo :=
  ⟨leVal (buf.take 8), pageChainNext buf, buf.length⟩

/-- `PageInfo::epoch`: `meta & PAGE_EPOCH_MAX`. -/
def PageInfo.epoch (i : PageInfo) : Nat := i.meta % 2^48

/-- `PageInfo::flags`: `(meta >> (PAGE_HEADER_LEN * 8)) as u8`. -/
def PageInfo.flagsByte (i : PageInfo) : Nat := i.meta / 2^48 % 256

/-- `PageInfo::kind`. -/
def PageInfo.kind (i : PageInfo) : Option PageKind := kindOfByte i.flagsByte

/-- `PageInfo::tier`. -/
def PageInfo.tier (i : PageInfo) : PageTier := tierOfByte i.flagsByte

/-- `PageInfo::chain_len`: `(meta >> ((PAGE_HEADER_LEN + 1) * 8)) as u8`. -/
def PageInfo.chainLen (i : PageInfo) : Nat := i.meta / 2^56 % 256

/-- `PageInfo::chain_next`. -/
def PageInfo.chainNext (i : PageInfo) : Nat := i.next

/-- C10: on any buffer of at least 16 (header-sized) bytes, the `PageInfo`
snapshot returned by `PagePtr::info` agrees with the direct header
accessors: epoch, kind, tier, chain length, chain next, and size (the
buffer's length). -/
theorem spec_C10_info_agrees (buf : List Nat) (h16 : 16 ≤ buf.length)
    (hb : ∀ b ∈ buf, b < 256) :
    (pageInfo buf).epoch = pageEpoch buf ∧
    (pageInfo buf).kind = pageKind buf ∧
    (pageInfo buf).tier = pageTier buf ∧
    (pageInfo buf).chainLen = pageChainLen buf ∧
    (pageInfo buf).chainNext = pageChainNext buf ∧
    (pageInfo buf).size = buf.length := by
  rcases buf with _ | ⟨b0, _ | ⟨b1, _ | ⟨b2, _ | ⟨b3, _ | ⟨b4, _ | ⟨b5, _ | ⟨b6, _ | ⟨b7, t⟩⟩⟩⟩⟩⟩⟩⟩ <;>
    simp only [List.length_nil, List.length_cons] at h16 <;> try omega
  have h6 : b6 < 256 := hb b6 (by simp)
  have h7 : b7 < 256 := hb b7 (by simp)
  have hflags : (pageInfo (b0 :: b1 :: b2 :: b3 :: b4 :: b5 :: b6 :: b7 :: t)).flagsByte
      = pageFlagsByte (b0 :: b1 :: b2 :: b3 :: b4 :: b5 :: b6 :: b7 :: t) := by
    show leVal [b0, b1, b2, b3, b4, b5, b6, b7] / 2^48 % 256 = b6
    simp only [leVal]
    omega
  refine ⟨rfl, ?_, ?_, ?_, rfl, rfl⟩
  · unfold PageInfo.kind pageKind
    rw [hflags]
  · unfold PageInfo.tier pageTier
    rw [hflags]
  · show leVal [b0, b1, b2, b3, b4, b5, b6, b7] / 2^56 % 256 = b7
    simp only [leVal]
    omega

/-- Witness for C10 at a concrete 16-byte page buffer. -/
theorem spec_C10_info_agrees_witness :
    (16 ≤ ([1, 2, 3, 4, 5, 6, 3, 9, 9, 10, 11, 12, 13, 14, 15, 16] : List Nat).length) ∧
    (∀ b ∈ ([1, 2, 3, 4, 5, 6, 3, 9, 9, 10, 11, 12, 13, 14, 15, 16] : List Nat), b < 256) ∧
    ((pageInfo [1, 2, 3, 4, 5, 6, 3, 9, 9, 10, 11, 12, 13, 14, 15, 16]).epoch
        = pageEpoch [1, 2, 3, 4, 5, 6, 3, 9, 9, 10, 11, 12, 13, 14, 15, 16] ∧
      (pageInfo [1, 2, 3, 4, 5, 6, 3, 9, 9, 10, 11, 12, 13, 14, 15, 16]).kind
        = pageKind [1, 2, 3, 4, 5, 6, 3, 9, 9, 10, 11, 12, 13, 14, 15, 16] ∧
      (pageInfo [1, 2, 3, 4, 5, 6, 3, 9, 9, 10, 11, 12, 13, 14, 15, 16]).tier
        = pageTier [1, 2, 3, 4, 5, 6, 3, 9, 9, 10, 11, 12, 13, 14, 15, 16] ∧
      (pageInfo [1, 2, 3, 4, 5, 6, 3, 9, 9, 10, 11, 12, 13, 14, 15, 16]).chainLen
        = pageChainLen [1, 2, 3, 4, 5, 6, 3, 9, 9, 10, 11, 12, 13, 14, 15, 16] ∧
      (pageInfo [1, 2, 3, 4, 5, 6, 3, 9, 9, 10, 11, 12, 13, 14, 15, 16]).chainNext
        = pageChainNext [1, 2, 3, 4, 5, 6, 3, 9, 9, 10, 11, 12, 13, 14, 15, 16] ∧
      (pageInfo [1, 2, 3, 4, 5, 6, 3, 9, 9, 10, 11, 12, 13, 14, 15, 16]).size
        = ([1, 2, 3, 4, 5, 6, 3, 9, 9, 10, 11, 12, 13, 14, 15, 16] : List Nat).length) :=
  ⟨by decide, by decide,
    spec_C10_info_agrees [1, 2, 3, 4, 5, 6, 3, 9, 9, 10, 11, 12, 13, 14, 15, 16]
      (by decide) (by decide)⟩


end OrangeDb
